import Mathlib

set_option maxRecDepth 8000

/-!
# Verification of the mcodec medical-image codec core

A shallow embedding, in Lean 4, of the core pipeline of the mcodec lossy
image codec (level shift, block tiling, 2-D DCT, scalar quantization,
zigzag scan, zero run-length coding, canonical Huffman coding, and the
MCDC container layout), together with proofs of the specification claims
about it.

Conventions of the embedding:
* C++ `int16_t` / `int32_t` values are modelled as `Int`; `uint8_t` /
  `uint16_t` / `uint32_t` values as `Nat`, with explicit `% 2^w`
  reductions exactly where the C++ relies on wrap-around.
* `std::vector` buffers are modelled as `List`.
* functions that `throw std::runtime_error` return `Except String α`.
* the floating-point stages (DCT/IDCT, quantize/dequantize) are modelled
  as `Prop`-valued relations over `ℝ` that mirror the source formulas;
  all integer stages are computable functions.
-/

/-- Decidable equality of `Except` results (needed to evaluate concrete
codec runs with `decide`). -/
instance {ε α : Type} [DecidableEq ε] [DecidableEq α] : DecidableEq (Except ε α)
  | .ok x, .ok y =>
    if h : x = y then .isTrue (congrArg _ h)
    else .isFalse fun hc => h (Except.ok.inj hc)
  | .ok _, .error _ => .isFalse fun hc => Except.noConfusion hc
  | .error _, .ok _ => .isFalse fun hc => Except.noConfusion hc
  | .error e, .error f =>
    if h : e = f then .isTrue (congrArg _ h)
    else .isFalse fun hc => h (Except.error.inj hc)

namespace MCodec

/-! ## Zero run-length encoding (`src: entropy/rle.cpp`)

`RlePair` mirrors `struct RlePair { int16_t value; uint16_t run; }`. -/

structure RlePair where
  value : Int
  run   : Nat
  deriving DecidableEq, Repr

/-- The AC-coefficient walk of `rle_encode_zeros`: maintains the `run`
counter of consecutive zeros; on a non-zero value emits `(v, run)` and
resets; on a zero increments `run`, first emitting `(0, 0xFFFF)` and
resetting when `run` has reached `0xFFFF`; after the walk, if `run > 0`,
emits the trailing-zeros pair `(0, run - 1)`. -/
def rleEncodeAC : List Int → Nat → List RlePair
  | [], run => if run > 0 then [⟨0, run - 1⟩] else []
  | v :: rest, run =>
    if v = 0 then
      if run = 65535 then ⟨0, 65535⟩ :: rleEncodeAC rest 1
      else rleEncodeAC rest (run + 1)
    else ⟨v, run⟩ :: rleEncodeAC rest 0

/-- The per-block loop of `rle_encode_zeros`: each block of `be = B*B`
coefficients contributes its DC verbatim as `(dc, 0)` followed by the AC
walk over the remaining `be - 1` coefficients. -/
def rleEncodeBlocks (be : Nat) : List Int → List RlePair
  | [] => []
  | dc :: rest =>
    (⟨dc, 0⟩ : RlePair) ::
      (rleEncodeAC (rest.take (be - 1)) 0 ++ rleEncodeBlocks be (rest.drop (be - 1)))
termination_by l => l.length
decreasing_by
  simp only [List.length_drop, List.length_cons]
  omega

/-- `rle_encode_zeros(seq_in, block_size, rle_out)`. -/
def rle_encode_zeros (seq_in : List Int) (block_size : Nat) :
    Except String (List RlePair) :=
  if ¬(block_size = 8 ∨ block_size = 16) then
    .error "rle_encode_zeros: block_size must be 8 or 16"
  else if seq_in.length % (block_size * block_size) ≠ 0 then
    .error "rle_encode_zeros: input size not multiple of block"
  else
    .ok (rleEncodeBlocks (block_size * block_size) seq_in)

/-- Body of the decode loop of `rle_decode_zeros`: emit `run` zeros then
the value, failing as soon as the output exceeds `total_coeffs`. -/
def rleDecodeStep (total : Nat) (acc : List Int) (p : RlePair) :
    Except String (List Int) :=
  let acc2 := acc ++ (List.replicate p.run 0 ++ [p.value])
  if acc2.length > total then .error "rle_decode_zeros: output exceeds expected size"
  else .ok acc2

/-- `rle_decode_zeros(rle_in, block_size, total_coeffs, seq_out)`. -/
def rle_decode_zeros (rle_in : List RlePair) (block_size : Nat) (total_coeffs : Nat) :
    Except String (List Int) :=
  if ¬(block_size = 8 ∨ block_size = 16) then
    .error "rle_decode_zeros: block_size must be 8 or 16"
  else
    match rle_in.foldlM (rleDecodeStep total_coeffs) [] with
    | .error e => .error e
    | .ok out =>
      if out.length ≠ total_coeffs then .error "rle_decode_zeros: output size mismatch"
      else .ok out

/-- The pure stream semantics of RLE pairs: each pair contributes `run`
zeros followed by its value. `rle_decode_zeros` computes exactly this
(proved below) when the length bookkeeping succeeds. -/
def decodePairs (pairs : List RlePair) : List Int :=
  pairs.flatMap fun p => List.replicate p.run 0 ++ [p.value]

/-! ## Image value and level shifter (`src: io/image_types.hpp`,
`src: preprocess/level_shift.cpp`) -/

/-- `enum class PixelType`. -/
inductive PixelType where
  | U8
  | U16
  | S16
  deriving DecidableEq, Repr

/-- `struct Image`: single-channel pixel grid with descriptor.  Pixels are
`int32_t`, modelled as `Int`. -/
structure Image where
  width : Int := 0
  height : Int := 0
  channels : Int := 1
  bits_stored : Int := 0
  bits_allocated : Int := 0
  is_signed : Bool := false
  type : PixelType := .U16
  pixels : List Int := []
  deriving DecidableEq, Repr

/-- Helper `clamp_i32(v, lo, hi) = std::min(std::max(v, lo), hi)`. -/
def clamp_i32 (v lo hi : Int) : Int := min (max v lo) hi

/-- `apply_level_shift`: returns unchanged on an empty pixel buffer, then
rejects `bits_stored ∉ [1, 16]`, is a no-op on signed images, and otherwise
subtracts `2^(bits_stored-1)` from every pixel and marks the image signed. -/
def apply_level_shift (img : Image) : Except String Image :=
  if img.pixels = [] then .ok img
  else if img.bits_stored ≤ 0 ∨ 16 < img.bits_stored then
    .error "apply_level_shift: invalid bits_stored"
  else if img.is_signed then .ok img
  else
    let offset : Int := 2 ^ (img.bits_stored.toNat - 1)
    .ok { img with pixels := img.pixels.map (fun v => v - offset), is_signed := true }

/-- `inverse_level_shift`: returns unchanged on an empty pixel buffer, then
rejects `bits_stored ∉ [1, 16]`, and otherwise adds `2^(bits_stored-1)`,
clamps to `[0, 2^bits_stored - 1]` and marks the image unsigned. -/
def inverse_level_shift (img : Image) : Except String Image :=
  if img.pixels = [] then .ok img
  else if img.bits_stored ≤ 0 ∨ 16 < img.bits_stored then
    .error "inverse_level_shift: invalid bits_stored"
  else
    let offset : Int := 2 ^ (img.bits_stored.toNat - 1)
    let maxv : Int := 2 ^ img.bits_stored.toNat - 1
    .ok { img with
          pixels := img.pixels.map (fun v => clamp_i32 (v + offset) 0 maxv),
          is_signed := false }

/-- An empty unsigned image whose `bits_stored` is out of range: the
level-shift routines accept it because the empty-buffer early return
precedes the `bits_stored` validation. -/
def imgEmptyBits20 : Image :=
  { width := 0, height := 0, channels := 1, bits_stored := 20,
    bits_allocated := 16, is_signed := false, type := .U16, pixels := [] }

/-- A one-pixel image with out-of-range `bits_stored`, used to witness the
level-shift validation error. -/
def imgOnePixelBits0 : Image :=
  { width := 1, height := 1, channels := 1, bits_stored := 0,
    bits_allocated := 8, is_signed := false, type := .U8, pixels := [7] }

/-! ## Quantizer (`src: quant/quantizer.cpp`)

The C++ quantizer works on `float` buffers.  Floating-point arithmetic is
modelled by exact real arithmetic: `quantize` and `dequantize` become
`Prop`-valued relations over `ℝ` that mirror the source formulas, and
`std::round` (round half away from zero) becomes `IsRoundHalfAway`. -/

/-- `quant_step_from_quality`: `q = 101 - quality`, raised to at least 1,
then capped at 100. -/
def quant_step_from_quality (quality : Int) : Int :=
  let q := 101 - quality
  let q1 := if q < 1 then 1 else q
  if q1 > 100 then 100 else q1

/-- The semantics of `std::round` (round to nearest, halves away from
zero) on a real input. -/
def IsRoundHalfAway (x : ℝ) (n : Int) : Prop :=
  (0 ≤ x → n = ⌊x + 1 / 2⌋) ∧ (x < 0 → n = -⌊-x + 1 / 2⌋)

/-- The int16 saturation in `quantize`: cap at `32767` then raise to
`-32768`. -/
def clampToInt16 (q : Int) : Int :=
  let q1 := if q > 32767 then 32767 else q
  if q1 < -32768 then -32768 else q1

/-- `quantize(coeff_in, block_size, quality, qcoeff_out)` as a relation:
each output is the int16-saturated round of `coeff * (1/step)`. -/
def quantize (coeff_in : List ℝ) (block_size : Nat) (quality : Int)
    (res : Except String (List Int)) : Prop :=
  if ¬(block_size = 8 ∨ block_size = 16) then
    res = .error "quantize: block_size must be 8 or 16"
  else if coeff_in.length % (block_size * block_size) ≠ 0 then
    res = .error "quantize: coeff size not multiple of block"
  else
    ∃ out : List Int, res = .ok out ∧
      List.Forall₂ (fun c o => ∃ q : Int,
          IsRoundHalfAway (c * (1 / (quant_step_from_quality quality : ℝ))) q ∧
            o = clampToInt16 q)
        coeff_in out

/-- `dequantize(qcoeff_in, block_size, quality, coeff_out)` as a relation:
each output is `q * step` in exact arithmetic. -/
def dequantize (qcoeff_in : List Int) (block_size : Nat) (quality : Int)
    (res : Except String (List ℝ)) : Prop :=
  if ¬(block_size = 8 ∨ block_size = 16) then
    res = .error "dequantize: block_size must be 8 or 16"
  else if qcoeff_in.length % (block_size * block_size) ≠ 0 then
    res = .error "dequantize: qcoeff size not multiple of block"
  else
    ∃ out : List ℝ, res = .ok out ∧
      List.Forall₂ (fun q o => o = (q : ℝ) * (quant_step_from_quality quality : ℝ))
        qcoeff_in out

/-! ## Bit writer and reader (`src: entropy/huffman.cpp`, classes
`BitWriter` / `BitReader`)

Bytes are modelled as `Nat` values `< 256`.  The abstract semantics of a
bit stream is a `List Nat` of bits (each 0 or 1), MSB-first per byte. -/

/-- The MSB-first `w`-bit representation of `val`. -/
def natBits (val : Nat) : Nat → List Nat
  | 0 => []
  | w + 1 => (val >>> w) % 2 :: natBits val w

/-- The bit expansion of a byte list, MSB-first per byte. -/
def streamBits (data : List Nat) : List Nat :=
  data.flatMap fun b => natBits b 8

/-- `BitWriter` state: finished bytes, current partial byte, bits filled. -/
structure BitWriterState where
  data : List Nat := []
  cur : Nat := 0
  bit_pos : Nat := 0
  deriving DecidableEq, Repr

/-- One iteration of the `write_bits` loop: shift the bit into `cur`
(uint8 arithmetic) and emit the byte every 8 bits. -/
def bwPushBit (st : BitWriterState) (bit : Nat) : BitWriterState :=
  let cur2 := (st.cur * 2 + bit) % 256
  if st.bit_pos + 1 = 8 then ⟨st.data ++ [cur2], 0, 0⟩
  else ⟨st.data, cur2, st.bit_pos + 1⟩

/-- The `write_bits` loop over the descending bit indices. -/
def bwWriteBitsAux (code : Nat) : List Nat → BitWriterState → BitWriterState
  | [], st => st
  | i :: is, st => bwWriteBitsAux code is (bwPushBit st ((code >>> i) % 2))

/-- `BitWriter::write_bits(code, bit_len)`: MSB-first, rejecting
`bit_len = 0` or `bit_len > 32`. -/
def write_bits (st : BitWriterState) (code : Nat) (bit_len : Nat) :
    Except String BitWriterState :=
  if bit_len = 0 ∨ bit_len > 32 then .error "BitWriter: invalid bit length"
  else .ok (bwWriteBitsAux code ((List.range bit_len).reverse) st)

/-- `BitWriter::flush()`: pad the partial byte with zero bits. -/
def bwFlush (st : BitWriterState) : BitWriterState :=
  if st.bit_pos > 0 then ⟨st.data ++ [(st.cur * 2 ^ (8 - st.bit_pos)) % 256], 0, 0⟩
  else st

/-- `BitReader` state.  The C++ pair `(byte_idx_, bit_pos_)` (with
`bit_pos_ < 8`) is represented by the single bit position
`pos = 8 * byte_idx_ + bit_pos_`. -/
structure BitReaderState where
  data : List Nat
  pos : Nat := 0
  deriving DecidableEq, Repr

/-- `BitReader::read_bit()`: MSB-first within each byte, failing past the
end of the buffer. -/
def read_bit (rs : BitReaderState) : Except String (Bool × BitReaderState) :=
  if rs.pos / 8 ≥ rs.data.length then .error "BitReader: out of data"
  else
    let byte := rs.data.getD (rs.pos / 8) 0
    let bit := (byte >>> (7 - rs.pos % 8)) % 2
    .ok (bit != 0, ⟨rs.data, rs.pos + 1⟩)

/-! ## Canonical Huffman (`src: entropy/huffman.cpp`) -/

/-- `HuffTable::EncEntry`. -/
structure EncEntry where
  code : Nat := 0
  len : Nat := 0
  valid : Bool := false
  deriving DecidableEq, Repr

/-- `HuffTable::Node`: the C++ `-1` sentinels become `none`. -/
structure HNode where
  left : Option Nat := none
  right : Option Nat := none
  symbol : Option Nat := none
  deriving DecidableEq, Repr

/-- `struct HuffTable`. -/
structure HuffTable where
  enc : List EncEntry := []
  decode_nodes : List HNode := []
  deriving DecidableEq, Repr

/-- The build-time tree.  The C++ `HeapNode` links children through
indices into a side vector; the index structure encodes exactly a binary
tree, represented here directly.  `freq` and `symbol` cache the C++
fields (for an internal node, `symbol` is the smallest symbol in the
subtree, used for deterministic tie-breaking). -/
inductive HTree where
  | leaf (freq symbol : Nat)
  | node (freq symbol : Nat) (left right : HTree)
  deriving DecidableEq, Repr

/-- The cached frequency of a build-tree node. -/
def HTree.freq : HTree → Nat
  | .leaf f _ => f
  | .node f _ _ _ => f

/-- The cached tie-break symbol of a build-tree node. -/
def HTree.symbol : HTree → Nat
  | .leaf _ s => s
  | .node _ s _ _ => s

/-- Ordered insertion into the priority queue, by `(freq, symbol)`
ascending — the strict weak order of the C++ `HeapComp` (all queue
elements have distinct `(freq, symbol)` keys, so the pop order of
`std::priority_queue` is uniquely determined and this sorted-list model
is faithful). -/
def heapPush (t : HTree) : List HTree → List HTree
  | [] => [t]
  | x :: xs =>
    if t.freq < x.freq ∨ (t.freq = x.freq ∧ t.symbol ≤ x.symbol) then t :: x :: xs
    else x :: heapPush t xs

/-- The Huffman merge loop: pop the two smallest, push their parent (whose
uint32 frequency wraps modulo `2^32` and whose tie-break symbol is the
minimum of the children), until one tree remains. -/
def huffMergeLoop : List HTree → Option HTree
  | [] => none
  | [t] => some t
  | a :: b :: rest =>
    huffMergeLoop
      (heapPush (.node ((a.freq + b.freq) % 2 ^ 32) (min a.symbol b.symbol) a b) rest)
termination_by pq => pq.length
decreasing_by
  have hlen : ∀ (t : HTree) (l : List HTree), (heapPush t l).length = l.length + 1 := by
    intro t l
    induction l with
    | nil => rfl
    | cons x xs ih =>
      rw [heapPush]
      split
      · simp
      · simp [ih]
  simp [hlen]

/-- The code-length DFS (left child first, as in the explicit stack of the
C++ code): leaves record their depth, internal nodes at depth ≥ 32 are a
fatal error. -/
def huffLens : HTree → Nat → Except String (List (Nat × Nat))
  | .leaf _ s, depth => .ok [(s, depth)]
  | .node _ _ l r, depth =>
    if depth ≥ 32 then .error "huffman: code length exceeds 32"
    else
      match huffLens l (depth + 1), huffLens r (depth + 1) with
      | .error e, _ => .error e
      | .ok _, .error e => .error e
      | .ok ll, .ok rl => .ok (ll ++ rl)

/-- Sort `(symbol, len)` entries by `(len ascending, symbol ascending)` —
the comparator used before canonical assignment on both the encode and
decode sides. -/
def sortByLenSym (lens : List (Nat × Nat)) : List (Nat × Nat) :=
  lens.insertionSort fun a b => a.2 < b.2 ∨ (a.2 = b.2 ∧ a.1 ≤ b.1)

/-- The canonical shift-and-increment assignment over a sorted length
list (uint32 code arithmetic): entering a longer length left-shifts the
running code by the difference; each entry receives the current code,
which is then incremented.  Produces `(symbol, code, len)` triples. -/
def canonAssignGo : List (Nat × Nat) → Nat → Nat → List (Nat × Nat × Nat)
  | [], _, _ => []
  | (s, l) :: rest, code, prev_len =>
    let code2 := if l ≠ prev_len then (code * 2 ^ (l - prev_len)) % 2 ^ 32 else code
    (s, code2, l) :: canonAssignGo rest ((code2 + 1) % 2 ^ 32) l

/-- Canonical assignment: the initial code 0 is shifted by the first
length (a no-op) and the loop starts with `prev_len` = first length. -/
def canonAssign (sorted : List (Nat × Nat)) : List (Nat × Nat × Nat) :=
  match sorted with
  | [] => []
  | (_, l0) :: _ => canonAssignGo sorted 0 l0

/-- `std::vector::resize` on the encode table (only ever grows here). -/
def encResize (enc : List EncEntry) (n : Nat) : List EncEntry :=
  if n ≤ enc.length then enc else enc ++ List.replicate (n - enc.length) ({} : EncEntry)

/-- The trie-descent loop of the decode-tree insertion: walk `r` remaining
code bits from the MSB, appending a fresh node (and linking it from its
parent) whenever the required child is absent.  Returns the updated node
vector and the index of the final node. -/
def trieInsertLoop (code : Nat) : Nat → List HNode → Nat → (List HNode × Nat)
  | 0, nodes, idx => (nodes, idx)
  | r + 1, nodes, idx =>
    let bit := (code >>> r) % 2
    let nd := nodes.getD idx {}
    match (if bit = 0 then nd.left else nd.right) with
    | some nx => trieInsertLoop code r nodes nx
    | none =>
      let nx := nodes.length
      let nodes2 := nodes ++ [{}]
      let nodes3 := nodes2.set idx
        (if bit = 0 then { nd with left := some nx } else { nd with right := some nx })
      trieInsertLoop code r nodes3 nx

/-- Insert one canonical code into the decode trie, failing on a duplicate
terminal. -/
def trieInsert (nodes : List HNode) (code len sym : Nat) (errMsg : String) :
    Except String (List HNode) :=
  let (nodes2, idx) := trieInsertLoop code len nodes 0
  let nd := nodes2.getD idx {}
  if nd.symbol ≠ none then .error errMsg
  else .ok (nodes2.set idx { nd with symbol := some sym })

/-- The per-entry step shared by both table builders: record
`(code, len, valid)` in the encode map (growing it if needed) and insert
the code into the decode trie. -/
def tableInsertStep (errMsg : String) (acc : List EncEntry × List HNode)
    (ce : Nat × Nat × Nat) : Except String (List EncEntry × List HNode) :=
  let enc2 := (encResize acc.1 (ce.1 + 1)).set ce.1 ⟨ce.2.1, ce.2.2, true⟩
  match trieInsert acc.2 ce.2.1 ce.2.2 ce.1 errMsg with
  | .error e => .error e
  | .ok nodes2 => .ok (enc2, nodes2)

/-- The frequency-accumulation loop of `build_canonical_table`: dense
`freqs` vector indexed by symbol, uint32 overflow checked. -/
def accFreqs : List (Nat × Nat) → List Nat → Except String (List Nat)
  | [], freqs => .ok freqs
  | (sym, f) :: rest, freqs =>
    if f = 0 then accFreqs rest freqs
    else
      let sum := freqs.getD sym 0 + f
      if sum > 4294967295 then .error "huffman: frequency overflow"
      else accFreqs rest (freqs.set sym sum)

/-- Collect the leaves (nonzero frequencies, ascending symbol order) into
the priority queue. -/
def heapOfLeaves (freqs : List Nat) : List HTree :=
  freqs.enum.foldl (fun pq p => if p.2 = 0 then pq else heapPush (.leaf p.2 p.1) pq) []

/-- `build_canonical_table(sym_freq)`. -/
def build_canonical_table (sym_freq : List (Nat × Nat)) : Except String HuffTable :=
  if sym_freq = [] then .error "huffman: empty symbol-frequency list"
  else
    let nz := sym_freq.filter fun sf => sf.2 ≠ 0
    if nz = [] then .error "huffman: all frequencies are zero"
    else
      let max_sym := (nz.map Prod.fst).foldl max 0
      match accFreqs sym_freq (List.replicate (max_sym + 1) 0) with
      | .error e => .error e
      | .ok freqs =>
        let pq := heapOfLeaves freqs
        if hpq : pq.length = 1 then
          let sym := (pq.head (by intro h; rw [h] at hpq; exact absurd hpq (by simp))).symbol
          .ok { enc := (List.replicate freqs.length ({} : EncEntry)).set sym ⟨0, 1, true⟩,
                decode_nodes := [{ left := some 1 }, { symbol := some sym }] }
        else
          match huffMergeLoop pq with
          | none => .error "huffman: empty queue"
          | some root =>
            match huffLens root 0 with
            | .error e => .error e
            | .ok lens =>
              let canon := canonAssign (sortByLenSym lens)
              match canon.foldlM (tableInsertStep "huffman: duplicate code assignment")
                  (List.replicate freqs.length ({} : EncEntry), [({} : HNode)]) with
              | .error e => .error e
              | .ok t => .ok { enc := t.1, decode_nodes := t.2 }

/-- `build_table_from_code_lengths(entries)`. -/
def build_table_from_code_lengths (entries : List (Nat × Nat)) :
    Except String HuffTable :=
  if entries = [] then .error "decode: empty Huffman table entries"
  else if ¬(∀ e ∈ entries, e.2 ≠ 0 ∧ e.2 ≤ 32) then .error "decode: invalid code length"
  else
    let canon := canonAssign (sortByLenSym entries)
    let max_sym := (canon.map Prod.fst).foldl max 0
    match canon.foldlM (tableInsertStep "decode: duplicate code assignment")
        (List.replicate (max_sym + 1) ({} : EncEntry), [({} : HNode)]) with
    | .error e => .error e
    | .ok t => .ok { enc := t.1, decode_nodes := t.2 }

/-- One step of the frequency-counting hash map of
`build_symbol_frequencies`, modelled as an insertion-ordered association
list with the uint32 overflow check. -/
def bumpFreq : List (Nat × Nat) → Nat → Except String (List (Nat × Nat))
  | [], s => .ok [(s, 1)]
  | (k, v) :: rest, s =>
    if k = s then
      if v = 4294967295 then .error "huffman: frequency overflow"
      else .ok ((k, v + 1) :: rest)
    else
      match bumpFreq rest s with
      | .error e => .error e
      | .ok r => .ok ((k, v) :: r)

/-- `build_symbol_frequencies(symbols)`: count occurrences, then sort the
`(symbol, freq)` pairs by symbol ascending. -/
def build_symbol_frequencies (symbols : List Nat) :
    Except String (List (Nat × Nat)) :=
  match symbols.foldlM bumpFreq [] with
  | .error e => .error e
  | .ok m => .ok (m.insertionSort fun a b => a.1 ≤ b.1)

/-- The per-symbol encode loop body of `huff_encode`. -/
def huffEncodeStep (t : HuffTable) (st : BitWriterState) (s : Nat) :
    Except String BitWriterState :=
  let e := t.enc.getD s {}
  if t.enc.length ≤ s ∨ e.valid = false then .error "huffman encode: symbol not in table"
  else write_bits st e.code e.len

/-- `huff_encode(symbols)`: build the canonical table from the stream
frequencies, emit each symbol's code MSB-first, and flush. -/
def huff_encode (symbols : List Nat) :
    Except String (HuffTable × List Nat) :=
  if symbols = [] then .error "huffman encode: empty symbols"
  else
    match build_symbol_frequencies symbols with
    | .error e => .error e
    | .ok freqs =>
      match build_canonical_table freqs with
      | .error e => .error e
      | .ok t =>
        match symbols.foldlM (huffEncodeStep t) {} with
        | .error e => .error e
        | .ok st => .ok (t, (bwFlush st).data)

/-- The inner trie walk of `huff_decode`: return the terminal's symbol, or
read one bit and descend; a missing child or an out-of-range node index is
fatal. -/
def huffDecodeOne (t : HuffTable) (node : Nat) (rs : BitReaderState) :
    Except String (Nat × BitReaderState) :=
  if t.decode_nodes.length ≤ node then .error "huffman decode: invalid node"
  else
    let nd := t.decode_nodes.getD node {}
    match nd.symbol with
    | some s => .ok (s, rs)
    | none =>
      match hbit : read_bit rs with
      | .error e => .error e
      | .ok (bit, rs2) =>
        match (if bit then nd.right else nd.left) with
        | none => .error "huffman decode: reached null child"
        | some nx => huffDecodeOne t nx rs2
termination_by 8 * rs.data.length - rs.pos
decreasing_by
  unfold read_bit at hbit
  split at hbit
  · exact absurd hbit (by simp)
  · rename_i hlt
    simp only [Except.ok.injEq, Prod.mk.injEq] at hbit
    obtain ⟨-, hrs2⟩ := hbit
    rw [← hrs2]
    simp only [not_le] at hlt
    have hp : rs.pos = 8 * (rs.pos / 8) + rs.pos % 8 := (Nat.div_add_mod _ _).symm ▸ by omega
    have : rs.pos < 8 * rs.data.length := by
      have h8 : rs.pos % 8 < 8 := Nat.mod_lt _ (by omega)
      omega
    simp only []
    omega

/-- The symbol-count loop of `huff_decode`. -/
def huffDecodeLoop (t : HuffTable) : Nat → BitReaderState → List Nat →
    Except String (List Nat)
  | 0, _, out => .ok out
  | n + 1, rs, out =>
    match huffDecodeOne t 0 rs with
    | .error e => .error e
    | .ok (s, rs2) => huffDecodeLoop t n rs2 (out ++ [s])

/-- `huff_decode(bits, t, symbol_count, out)`. -/
def huff_decode (bits : List Nat) (t : HuffTable) (symbol_count : Nat) :
    Except String (List Nat) :=
  huffDecodeLoop t symbol_count ⟨bits, 0⟩ []

/-! ## Zigzag scan (`src: block/zigzag.cpp`) -/

/-- `make_zigzag_order(N)`: walk the antidiagonals `u + v = s`, even sums
from low `x` upward, odd sums from low `y` upward, skipping out-of-range
cells.  (`N` is a C++ `int`; callers only pass 8 or 16, and the `N ≤ 0`
rejection becomes `N = 0` over `Nat`.) -/
def make_zigzag_order (N : Nat) : Except String (List Nat) :=
  if N = 0 then .error "make_zigzag_order: N must be positive"
  else
    .ok ((List.range (2 * (N - 1) + 1)).flatMap fun s =>
      if s % 2 = 0 then
        (List.range (s + 1)).filterMap fun x =>
          if x < N ∧ s - x < N then some ((s - x) * N + x) else none
      else
        (List.range (s + 1)).filterMap fun y =>
          if s - y < N ∧ y < N then some (y * N + (s - y)) else none)

/-- Per-block gather `dst[i] = src[order[i]]` over consecutive blocks of
`be` coefficients. -/
def zigzagGatherBlocks (order : List Nat) (be : Nat) : List Int → List Int
  | [] => []
  | x :: rest =>
    (order.map fun idx => ((x :: rest).take be).getD idx 0) ++
      zigzagGatherBlocks order be (rest.drop (be - 1))
termination_by l => l.length
decreasing_by
  simp only [List.length_drop, List.length_cons]
  omega

/-- Per-block scatter `dst[order[i]] = src[i]` (the output slots start
zero-initialised, as `std::vector::resize` value-initialises). -/
def zigzagScatterBlocks (order : List Nat) (be : Nat) : List Int → List Int
  | [] => []
  | x :: rest =>
    (order.zip ((x :: rest).take be)).foldl (fun acc p => acc.set p.1 p.2)
        (List.replicate be 0) ++
      zigzagScatterBlocks order be (rest.drop (be - 1))
termination_by l => l.length
decreasing_by
  simp only [List.length_drop, List.length_cons]
  omega

/-- `zigzag_scan_blocks(qcoeff_in, block_size, seq_out)`. -/
def zigzag_scan_blocks (qcoeff_in : List Int) (block_size : Nat) :
    Except String (List Int) :=
  if ¬(block_size = 8 ∨ block_size = 16) then
    .error "zigzag_scan_blocks: block_size must be 8 or 16"
  else if qcoeff_in.length % (block_size * block_size) ≠ 0 then
    .error "zigzag_scan_blocks: input size not multiple of block"
  else
    match make_zigzag_order block_size with
    | .error e => .error e
    | .ok order => .ok (zigzagGatherBlocks order (block_size * block_size) qcoeff_in)

/-- `inverse_zigzag_blocks(seq_in, block_size, qcoeff_out)`. -/
def inverse_zigzag_blocks (seq_in : List Int) (block_size : Nat) :
    Except String (List Int) :=
  if ¬(block_size = 8 ∨ block_size = 16) then
    .error "inverse_zigzag_blocks: block_size must be 8 or 16"
  else if seq_in.length % (block_size * block_size) ≠ 0 then
    .error "inverse_zigzag_blocks: input size not multiple of block"
  else
    match make_zigzag_order block_size with
    | .error e => .error e
    | .ok order => .ok (zigzagScatterBlocks order (block_size * block_size) seq_in)

/-! ## Symbol packing (`src: entropy/rle.cpp`) -/

/-- `pack_rle_symbols`: `(run << 16) | uint16(value)` (the run field is a
C++ `uint16_t`, hence `< 65536`). -/
def pack_rle_symbols (pairs : List RlePair) : List Nat :=
  pairs.map fun p => p.run * 65536 + (p.value.emod 65536).toNat

/-- `unpack_rle_symbols`: split the 32-bit symbol and reinterpret the low
half as a signed 16-bit value. -/
def unpack_rle_symbols (symbols : List Nat) : List RlePair :=
  symbols.map fun sym =>
    let run := (sym >>> 16) % 65536
    let val_bits := sym % 65536
    let value : Int := if val_bits < 32768 then (val_bits : Int) else (val_bits : Int) - 65536
    ⟨value, run⟩

/-! ## Block grid and tiling (`src: block/tiling.cpp`) -/

/-- `struct BlockGrid`. -/
structure BlockGrid where
  block_size : Int := 8
  blocks_x : Int := 0
  blocks_y : Int := 0
  padded_w : Int := 0
  padded_h : Int := 0
  deriving DecidableEq, Repr

/-- `make_grid(width, height, block_size)`. -/
def make_grid (width height block_size : Int) : Except String BlockGrid :=
  if ¬(block_size = 8 ∨ block_size = 16) then
    .error "make_grid: block_size must be 8 or 16"
  else if width ≤ 0 ∨ height ≤ 0 then .error "make_grid: invalid image size"
  else
    .ok { block_size := block_size,
          blocks_x := (width + block_size - 1) / block_size,
          blocks_y := (height + block_size - 1) / block_size,
          padded_w := (width + block_size - 1) / block_size * block_size,
          padded_h := (height + block_size - 1) / block_size * block_size }

/-- `tile_to_blocks(img, g)`: the padded raster with image content at the
top left and zero everywhere else. -/
def tile_to_blocks (img : Image) (g : BlockGrid) : Except String (List Int) :=
  if img.channels ≠ 1 then .error "tile_to_blocks: only grayscale supported"
  else if img.width ≤ 0 ∨ img.height ≤ 0 then .error "tile_to_blocks: invalid image size"
  else if (img.pixels.length : Int) ≠ img.width * img.height then
    .error "tile_to_blocks: pixel buffer mismatch"
  else if g.padded_w ≤ 0 ∨ g.padded_h ≤ 0 then .error "tile_to_blocks: invalid grid"
  else
    .ok ((List.range g.padded_h.toNat).flatMap fun y =>
      (List.range g.padded_w.toNat).map fun x =>
        if y < img.height.toNat ∧ x < img.width.toNat then
          img.pixels.getD (y * img.width.toNat + x) 0
        else 0)

/-- `untile_from_blocks(img, g, padded)`: crop the top-left `W×H`
sub-rectangle back into the image's pixel buffer. -/
def untile_from_blocks (img : Image) (g : BlockGrid) (padded : List Int) :
    Except String Image :=
  if img.channels ≠ 1 then .error "untile_from_blocks: only grayscale supported"
  else if img.width ≤ 0 ∨ img.height ≤ 0 then
    .error "untile_from_blocks: invalid image size"
  else if (padded.length : Int) ≠ g.padded_w * g.padded_h then
    .error "untile_from_blocks: padded buffer mismatch"
  else
    .ok { img with
          pixels := (List.range img.height.toNat).flatMap fun y =>
            (List.range img.width.toNat).map fun x =>
              padded.getD (y * g.padded_w.toNat + x) 0 }

/-! ## 2-D DCT / IDCT (`src: transform/dct2d.cpp`)

The C++ transform works in `double` with a cached cosine table
`C(u, x) = cos((2x+1)·u·π/(2N))` and `α(0) = √(1/N)`, `α(u>0) = √(2/N)`,
then casts to `float` (forward) or rounds/clamps to `int32` (inverse).
Floating point is modelled as exact real arithmetic; the per-pass
structure (row pass then column pass) is composed into the nested-sum
formula each output obeys. -/

/-- `dct2d_blocks(blocks_in, block_size, coeff_out)` as a relation: the
forward separable DCT-II, `out[b,v,u] = α(v)·Σ_y (α(u)·Σ_x f[y,x]·C(u,x))·C(v,y)`. -/
def dct2d_blocks (blocks_in : List Int) (block_size : Nat)
    (res : Except String (List ℝ)) : Prop :=
  if ¬(block_size = 8 ∨ block_size = 16) then
    res = .error "dct2d_blocks: block_size must be 8 or 16"
  else if blocks_in.length % (block_size * block_size) ≠ 0 then
    res = .error "dct2d_blocks: input size not multiple of block"
  else
    ∃ out : List ℝ, res = .ok out ∧ out.length = blocks_in.length ∧
      ∀ b v u : Nat, b < blocks_in.length / (block_size * block_size) →
        v < block_size → u < block_size →
        out.getD (b * (block_size * block_size) + v * block_size + u) 0 =
          (∑ y ∈ Finset.range block_size,
            ((∑ x ∈ Finset.range block_size,
              (blocks_in.getD (b * (block_size * block_size) + y * block_size + x) 0 : ℝ) *
                Real.cos ((2 * x + 1) * u * Real.pi / (2 * block_size))) *
              (if u = 0 then Real.sqrt (1 / block_size) else Real.sqrt (2 / block_size))) *
              Real.cos ((2 * y + 1) * v * Real.pi / (2 * block_size))) *
            (if v = 0 then Real.sqrt (1 / block_size) else Real.sqrt (2 / block_size))

/-- `idct2d_blocks(coeff_in, block_size, blocks_out)` as a relation: the
inverse separable DCT, rounded half away from zero and clamped to the
int32 range. -/
def idct2d_blocks (coeff_in : List ℝ) (block_size : Nat)
    (res : Except String (List Int)) : Prop :=
  if ¬(block_size = 8 ∨ block_size = 16) then
    res = .error "idct2d_blocks: block_size must be 8 or 16"
  else if coeff_in.length % (block_size * block_size) ≠ 0 then
    res = .error "idct2d_blocks: input size not multiple of block"
  else
    ∃ out : List Int, res = .ok out ∧ out.length = coeff_in.length ∧
      ∀ b y x : Nat, b < coeff_in.length / (block_size * block_size) →
        y < block_size → x < block_size →
        ∃ r : Int,
          IsRoundHalfAway
            (∑ u ∈ Finset.range block_size,
              ((if u = 0 then Real.sqrt (1 / block_size) else Real.sqrt (2 / block_size)) *
                (∑ v ∈ Finset.range block_size,
                  (if v = 0 then Real.sqrt (1 / block_size) else Real.sqrt (2 / block_size)) *
                    coeff_in.getD (b * (block_size * block_size) + v * block_size + u) 0 *
                    Real.cos ((2 * y + 1) * v * Real.pi / (2 * block_size))) *
                Real.cos ((2 * x + 1) * u * Real.pi / (2 * block_size)))) r ∧
          out.getD (b * (block_size * block_size) + y * block_size + x) 0 =
            max (-2147483648) (min 2147483647 r)

/-! ## Byte writer / reader and container header
(`src: entropy/bitstream.hpp`, `src: entropy/bitstream.cpp`,
`src: format/mcodec_format.hpp`) -/

/-- `ByteWriter::write_u8` (the argument is truncated to a byte at the
call boundary, as by the C++ `uint8_t` parameter type). -/
def write_u8 (buf : List Nat) (v : Nat) : List Nat := buf ++ [v % 256]

/-- `ByteWriter::write_u16_le`. -/
def write_u16_le (buf : List Nat) (v : Nat) : List Nat :=
  buf ++ [v % 256, v / 256 % 256]

/-- `ByteWriter::write_u32_le`: two little-endian u16 halves. -/
def write_u32_le (buf : List Nat) (v : Nat) : List Nat :=
  write_u16_le (write_u16_le buf (v % 65536)) (v / 65536 % 65536)

/-- `ByteWriter::write_bytes`. -/
def write_bytes (buf : List Nat) (data : List Nat) : List Nat := buf ++ data

/-- The C++ cast `static_cast<int>` of a `uint32_t` value: two's
complement reinterpretation into the signed 32-bit range. -/
def u32ToInt32 (n : Nat) : Int :=
  if n < 2147483648 then (n : Int) else (n : Int) - 4294967296

/-- `struct MCodecHeader` (all fields as natural numbers of their
respective widths; `magic` as four bytes). -/
structure MCodecHeader where
  magic : List Nat := []
  version : Nat := 0
  header_bytes : Nat := 0
  width : Nat := 0
  height : Nat := 0
  channels : Nat := 0
  bits_allocated : Nat := 0
  bits_stored : Nat := 0
  is_signed : Nat := 0
  flags : Nat := 0
  block_size : Nat := 0
  quality : Nat := 0
  payload_bytes : Nat := 0
  deriving DecidableEq, Repr

/-- `write_bitstream_header(w, im, flags, block_size, quality)`: build the
header from the image descriptor (with the C++ integral casts made
explicit) and serialise it field by field, little-endian, with
`payload_bytes = 0` to be patched by the caller. -/
def write_bitstream_header (buf : List Nat) (im : Image) (flags : Nat)
    (block_size quality : Nat) : List Nat :=
  let hdr_width := (im.width.emod 4294967296).toNat
  let hdr_height := (im.height.emod 4294967296).toNat
  let hdr_channels := (im.channels.emod 65536).toNat
  let hdr_bits_allocated := (im.bits_allocated.emod 65536).toNat
  let hdr_bits_stored := (im.bits_stored.emod 65536).toNat
  let hdr_is_signed := if im.is_signed then 1 else 0
  write_u32_le
    (write_u16_le
      (write_u16_le
        (write_u8
          (write_u8
            (write_u16_le
              (write_u16_le
                (write_u16_le
                  (write_u32_le
                    (write_u32_le
                      (write_u16_le
                        (write_u16_le
                          (write_bytes buf [77, 67, 68, 67])
                          1)
                        32)
                      hdr_width)
                    hdr_height)
                  hdr_channels)
                hdr_bits_allocated)
              hdr_bits_stored)
            hdr_is_signed)
          flags)
        block_size)
      quality)
    0

/-- Little-endian u16 at a byte offset (pure; used under a prior length
check, which subsumes the C++ per-read EOF checks). -/
def get_u16_at (b : List Nat) (off : Nat) : Nat :=
  b.getD off 0 + b.getD (off + 1) 0 * 256

/-- Little-endian u32 at a byte offset. -/
def get_u32_at (b : List Nat) (off : Nat) : Nat :=
  b.getD off 0 + b.getD (off + 1) 0 * 256 + b.getD (off + 2) 0 * 65536 +
    b.getD (off + 3) 0 * 16777216

/-- `read_bitstream_header(bytes)`: parse and validate the fixed 32-byte
header. -/
def read_bitstream_header (bytes : List Nat) : Except String MCodecHeader :=
  if bytes.length < 32 then .error "decode: file too small"
  else
    let hdr : MCodecHeader :=
      { magic := [bytes.getD 0 0, bytes.getD 1 0, bytes.getD 2 0, bytes.getD 3 0],
        version := get_u16_at bytes 4,
        header_bytes := get_u16_at bytes 6,
        width := get_u32_at bytes 8,
        height := get_u32_at bytes 12,
        channels := get_u16_at bytes 16,
        bits_allocated := get_u16_at bytes 18,
        bits_stored := get_u16_at bytes 20,
        is_signed := bytes.getD 22 0,
        flags := bytes.getD 23 0,
        block_size := get_u16_at bytes 24,
        quality := get_u16_at bytes 26,
        payload_bytes := get_u32_at bytes 28 }
    if hdr.magic ≠ [77, 67, 68, 67] then .error "decode: bad magic"
    else if hdr.version ≠ 1 then .error "decode: unsupported version"
    else if hdr.header_bytes < 32 then .error "decode: invalid header_bytes"
    else if bytes.length < hdr.header_bytes then .error "decode: truncated header"
    else .ok hdr

/-! ## Encoder (`src: codec/encoder.cpp`) -/

/-- The used-symbol table section of the encoder: symbols with a valid
nonzero-length code, in index order, then sorted by `(len, symbol)`
ascending for the canonical rebuild. -/
def collectTableEntries (enc : List EncEntry) : List (Nat × Nat) :=
  ((enc.enum.filter fun p => p.2.valid ∧ p.2.len > 0).map fun p => (p.1, p.2.len)).insertionSort
    fun a b => a.2 < b.2 ∨ (a.2 = b.2 ∧ a.1 ≤ b.1)

/-- The serialisation half of `encode_to_mcodec` after Huffman coding:
header and payload framing and the `payload_bytes` patch (uint32
arithmetic throughout).  `table_entries` is the used-symbol section
(collected by the caller from the encode table) and `bits` the Huffman
payload bytes. -/
def encodeAssemble (img : Image) (quality : Int) (level_shift_applied : Bool)
    (symbols : List Nat) (table_entries : List (Nat × Nat)) (bits : List Nat) :
    Except String (List Nat) :=
  let flags : Nat := if level_shift_applied then 1 else 0
  let symbol_count := symbols.length % 4294967296
  if table_entries = [] then .error "encode: no used symbols for Huffman table"
  else
    let used_symbol_count := table_entries.length % 4294967296
    let huff_table_section_bytes := (4 + 4 + used_symbol_count * (4 + 1)) % 4294967296
    let huff_payload_bytes := bits.length % 4294967296
    let payload_bytes := (huff_table_section_bytes + huff_payload_bytes) % 4294967296
    let w1 := write_bitstream_header [] img flags 8 ((quality.emod 65536).toNat)
    let w2 := write_u32_le w1 symbol_count
    let w3 := write_u32_le w2 used_symbol_count
    let w4 := table_entries.foldl (fun w e => write_u8 (write_u32_le w e.1) e.2) w3
    let w5 := write_bytes w4 bits
    if w5.length < 32 then
      .error "encode: header size too small when patching payload_bytes"
    else
      let patched :=
        (((w5.set 28 (payload_bytes % 256)).set 29 (payload_bytes / 256 % 256)).set 30
            (payload_bytes / 65536 % 256)).set 31 (payload_bytes / 16777216 % 256)
      let expected_size := (32 + payload_bytes) % 4294967296
      if patched.length ≠ expected_size then
        .error "encode: buffer size mismatch after patching payload_bytes"
      else .ok patched

/-- The integer back half of `encode_to_mcodec`, from the quantized
coefficients onward: zigzag, RLE, symbol packing, Huffman coding, then
`encodeAssemble` on the collected used-symbol entries. -/
def encodeEntropyTail (img : Image) (quality : Int) (level_shift_applied : Bool)
    (qcoeff : List Int) : Except String (List Nat) :=
  match zigzag_scan_blocks qcoeff 8 with
  | .error e => .error e
  | .ok zigzag_seq =>
    match rle_encode_zeros zigzag_seq 8 with
    | .error e => .error e
    | .ok rle =>
      let symbols := pack_rle_symbols rle
      match huff_encode symbols with
      | .error e => .error e
      | .ok tb =>
        encodeAssemble img quality level_shift_applied symbols
          (collectTableEntries tb.1.enc) tb.2

/-- `encode_to_mcodec(im, quality)` as a relation (the DCT and quantizer
stages are real-valued relations; everything else is computed).  Note the
header is written from the working copy `img` *after* `apply_level_shift`
has run on it. -/
def encode_to_mcodec (im : Image) (quality : Int)
    (res : Except String (List Nat)) : Prop :=
  if im.channels ≠ 1 then res = .error "encode: only grayscale is supported"
  else if im.width ≤ 0 ∨ im.height ≤ 0 then res = .error "encode: invalid image size"
  else if (im.pixels.length : Int) ≠ im.width * im.height then
    res = .error "encode: buffer size mismatch"
  else
    let level_shift_applied := !im.is_signed
    match apply_level_shift im with
    | .error e => res = .error e
    | .ok img =>
      match make_grid img.width img.height 8 with
      | .error e => res = .error e
      | .ok grid =>
        match tile_to_blocks img grid with
        | .error e => res = .error e
        | .ok blocks =>
          ∃ cres, dct2d_blocks blocks 8 cres ∧
            match cres with
            | .error e => res = .error e
            | .ok coeffs =>
              ∃ qres, quantize coeffs 8 quality qres ∧
                match qres with
                | .error e => res = .error e
                | .ok qcoeff =>
                  res = encodeEntropyTail img quality level_shift_applied qcoeff

/-! ## Decoder (`src: codec/decoder.cpp`) -/

/-- The integer front half of `decode_from_mcodec`: header parse, payload
framing, Huffman table section, Huffman decode, symbol unpacking, RLE
decode and inverse zigzag, producing the quantized coefficients together
with the parsed header and grid. -/
def decodeEntropyFront (bytes : List Nat) :
    Except String (MCodecHeader × BlockGrid × List Int) :=
  if bytes.length < 32 then .error "decode: buffer too small for header"
  else
    match read_bitstream_header bytes with
    | .error e => .error e
    | .ok hdr =>
      if bytes.length < hdr.header_bytes + hdr.payload_bytes then
        .error "decode: buffer smaller than declared payload_bytes"
      else
        let payload := (bytes.drop hdr.header_bytes).take hdr.payload_bytes
        if payload.length < 4 then .error "bitstream: premature EOF"
        else if payload.length < 8 then .error "bitstream: premature EOF"
        else
          let symbol_count := get_u32_at payload 0
          let used_symbol_count := get_u32_at payload 4
          if used_symbol_count = 0 then .error "decode: used_symbol_count is zero"
          else if payload.length - 8 < used_symbol_count * (4 + 1) then
            .error "decode: table section truncated"
          else
            let entries := (List.range used_symbol_count).map fun i =>
              (get_u32_at payload (8 + 5 * i), payload.getD (8 + 5 * i + 4) 0)
            if ¬(∀ e ∈ entries, e.2 ≠ 0 ∧ e.2 ≤ 32) then
              .error "decode: invalid code length in table section"
            else
              let huff_bits := payload.drop (8 + 5 * used_symbol_count)
              match build_table_from_code_lengths entries with
              | .error e => .error e
              | .ok table =>
                match huff_decode huff_bits table symbol_count with
                | .error e => .error e
                | .ok symbols =>
                  let rle := unpack_rle_symbols symbols
                  match make_grid (u32ToInt32 hdr.width) (u32ToInt32 hdr.height)
                      (hdr.block_size : Int) with
                  | .error e => .error e
                  | .ok grid =>
                    let total := (grid.blocks_x * grid.blocks_y).toNat *
                      (hdr.block_size * hdr.block_size)
                    match rle_decode_zeros rle hdr.block_size total with
                    | .error e => .error e
                    | .ok seq =>
                      match inverse_zigzag_blocks seq hdr.block_size with
                      | .error e => .error e
                      | .ok qcoeff => .ok (hdr, grid, qcoeff)

/-- `decode_from_mcodec(bytes)` as a relation (dequantize and IDCT are
real-valued relations; everything else is computed). -/
def decode_from_mcodec (bytes : List Nat) (res : Except String Image) : Prop :=
  match decodeEntropyFront bytes with
  | .error e => res = .error e
  | .ok front =>
    ∃ dres, dequantize front.2.2 front.1.block_size (front.1.quality : Int) dres ∧
      match dres with
      | .error e => res = .error e
      | .ok coeffs =>
        ∃ ires, idct2d_blocks coeffs front.1.block_size ires ∧
          match ires with
          | .error e => res = .error e
          | .ok blocks =>
            let hdr := front.1
            let im0 : Image :=
              { width := u32ToInt32 hdr.width,
                height := u32ToInt32 hdr.height,
                channels := (hdr.channels : Int),
                bits_allocated := (hdr.bits_allocated : Int),
                bits_stored := (hdr.bits_stored : Int),
                is_signed := hdr.is_signed ≠ 0,
                type := if hdr.is_signed ≠ 0 then .S16
                  else if hdr.bits_allocated ≤ 8 then .U8 else .U16,
                pixels := [] }
            match untile_from_blocks im0 front.2.1 blocks with
            | .error e => res = .error e
            | .ok im1 =>
              match (if hdr.flags % 2 = 1 then inverse_level_shift im1 else .ok im1) with
              | .error e => res = .error e
              | .ok im2 =>
                if (im2.pixels.length : Int) ≠ im2.width * im2.height * im2.channels then
                  res = .error "decode: decoded pixel count mismatch"
                else res = .ok im2

/-- The table both builders produce in the degenerate single-symbol case:
symbol `s` has code 0 of length 1, and the decode trie is a root whose
left child is the terminal leaf. -/
def singleSymHuffTable (s : Nat) : HuffTable :=
  { enc := (List.replicate (s + 1) ({} : EncEntry)).set s ⟨0, 1, true⟩,
    decode_nodes := [{ left := some 1 }, { symbol := some s }] }

/-- The bit-writer state after emitting `k` zero bits: `k / 8` zero bytes
and `k % 8` zero bits pending. -/
def bwZeroState (k : Nat) : BitWriterState :=
  ⟨List.replicate (k / 8) 0, 0, k % 8⟩

/-- The table both builders produce from a two-symbol histogram
`{a ↦ f, b ↦ g}` with `a < b` and equal-priority merge: both symbols get
length 1, `a` code 0 and `b` code 1. -/
def twoSymHuffTable (a b : Nat) : HuffTable :=
  { enc := ((List.replicate (b + 1) ({} : EncEntry)).set a ⟨0, 1, true⟩).set b ⟨1, 1, true⟩,
    decode_nodes :=
      [{ left := some 1, right := some 2 }, { symbol := some a }, { symbol := some b }] }

/-- The four little-endian bytes of a u32 value. -/
def u32LEBytes (v : Nat) : List Nat :=
  [v % 256, v / 256 % 256, v / 65536 % 256, v / 16777216 % 256]

/-- The zigzag permutation for N = 8 (the standard JPEG order), the value
of `make_zigzag_order 8`. -/
def zigzagOrder8 : List Nat :=
  [0, 1, 8, 16, 9, 2, 3, 10, 17, 24, 32, 25, 18, 11, 4, 5, 12, 19, 26, 33,
   40, 48, 41, 34, 27, 20, 13, 6, 7, 14, 21, 28, 35, 42, 49, 56, 57, 50,
   43, 36, 29, 22, 15, 23, 30, 37, 44, 51, 58, 59, 52, 45, 38, 31, 39, 46,
   53, 60, 61, 54, 47, 55, 62, 63]

/-- Seed scenario S1: the constant 8×8 unsigned 8-bit image with every
pixel 128. -/
def img128 : Image :=
  { width := 8, height := 8, channels := 1, bits_stored := 8,
    bits_allocated := 8, is_signed := false, type := .U8,
    pixels := List.replicate 64 128 }

/-- The encoder's working copy of `img128` after the level shift: all
pixels zero and the image marked signed. -/
def img128s : Image :=
  { width := 8, height := 8, channels := 1, bits_stored := 8,
    bits_allocated := 8, is_signed := true, type := .U8,
    pixels := List.replicate 64 0 }

/-- The container bytes `encode_to_mcodec` produces for `img128` at the
given quality (only the two quality bytes depend on it): header, then
payload `[symbol_count=2][used=2][(0,len 1)][(0x3E0000,len 1)][bits 0x40]`. -/
def encBytes128 (q : Int) : List Nat :=
  [77, 67, 68, 67, 1, 0, 32, 0,
   8, 0, 0, 0, 8, 0, 0, 0,
   1, 0, 8, 0, 8, 0, 1, 1,
   8, 0, (q.emod 65536).toNat % 256, (q.emod 65536).toNat / 256 % 256,
   19, 0, 0, 0,
   2, 0, 0, 0, 2, 0, 0, 0,
   0, 0, 0, 0, 1,
   0, 0, 62, 0, 1,
   64]

/-- A two-channel image, rejected by the encoder's first structural check. -/
def imgChan2 : Image :=
  { width := 2, height := 2, channels := 2, bits_stored := 8,
    bits_allocated := 8, is_signed := false, type := .U8,
    pixels := [1, 2, 3, 4] }

/-- The image `decode_from_mcodec` reconstructs from `encBytes128 50`: every
pixel is 128, the signedness flag is cleared by the inverse level shift, and
`type` is `S16` because the header's `is_signed` byte was recorded as 1. -/
def imgDec50 : Image :=
  { width := 8, height := 8, channels := 1, bits_stored := 8,
    bits_allocated := 8, is_signed := false, type := .S16,
    pixels := List.replicate 64 128 }

end MCodec

namespace MCodec

/-! ### RLE lemmas -/

theorem decodePairs_nil : decodePairs [] = [] := rfl

theorem decodePairs_cons (p : RlePair) (ps : List RlePair) :
    decodePairs (p :: ps) = (List.replicate p.run 0 ++ [p.value]) ++ decodePairs ps := by
  simp [decodePairs]

theorem decodePairs_append (ps qs : List RlePair) :
    decodePairs (ps ++ qs) = decodePairs ps ++ decodePairs qs := by
  simp [decodePairs]

/-- The decode fold succeeds and produces `acc ++ decodePairs pairs`
whenever the final length stays within `total`. -/
theorem foldlM_rleDecodeStep (pairs : List RlePair) (acc : List Int) (total : Nat)
    (h : (acc ++ decodePairs pairs).length ≤ total) :
    pairs.foldlM (rleDecodeStep total) acc = .ok (acc ++ decodePairs pairs) := by
  induction pairs generalizing acc with
  | nil =>
    simp only [List.foldlM_nil, decodePairs, List.flatMap_nil, List.append_nil]
    rfl
  | cons p ps ih =>
    rw [decodePairs_cons] at h
    have hlen : (acc ++ (List.replicate p.run 0 ++ [p.value])).length ≤ total := by
      simp only [List.length_append, List.length_replicate, List.length_cons,
        List.length_nil] at h ⊢
      omega
    have hstep : rleDecodeStep total acc p =
        .ok (acc ++ (List.replicate p.run 0 ++ [p.value])) := by
      unfold rleDecodeStep
      rw [if_neg (by omega)]
    rw [List.foldlM_cons, hstep]
    rw [show ((Except.ok (acc ++ (List.replicate p.run 0 ++ [p.value])) : Except String (List Int)) >>=
        fun x => ps.foldlM (rleDecodeStep total) x) =
        ps.foldlM (rleDecodeStep total) (acc ++ (List.replicate p.run 0 ++ [p.value])) from rfl]
    rw [ih _ (by rw [← List.append_assoc] at h; exact h)]
    rw [decodePairs_cons, List.append_assoc]

/-- If the stream semantics of `pairs` has exactly `total` elements, the
real decoder returns it. -/
theorem rle_decode_zeros_eq_decodePairs (pairs : List RlePair) (B total : Nat)
    (hB : B = 8 ∨ B = 16) (h : (decodePairs pairs).length = total) :
    rle_decode_zeros pairs B total = .ok (decodePairs pairs) := by
  unfold rle_decode_zeros
  rw [if_neg (not_not_intro hB)]
  have hfold := foldlM_rleDecodeStep pairs [] total (by simp [h])
  simp only [List.nil_append] at hfold
  rw [hfold]
  simp [h]

/-- The AC walk round-trips: provided the run counter cannot reach the
`0xFFFF` split (which it cannot inside an 8×8 or 16×16 block), decoding
the emitted pairs yields the pending zeros followed by the walked
coefficients. -/
theorem decodePairs_rleEncodeAC (ac : List Int) (run : Nat)
    (h : run + ac.length ≤ 65535) :
    decodePairs (rleEncodeAC ac run) = List.replicate run 0 ++ ac := by
  induction ac generalizing run with
  | nil =>
    by_cases hrun : run > 0
    · have : run - 1 + 1 = run := by omega
      simp [rleEncodeAC, hrun, decodePairs, ← List.replicate_succ' (run - 1) (0 : Int), this]
    · have : run = 0 := by omega
      simp [rleEncodeAC, hrun, decodePairs, this]
  | cons v rest ih =>
    simp only [List.length_cons] at h
    by_cases hv : v = 0
    · have hne : run ≠ 65535 := by omega
      rw [show rleEncodeAC (v :: rest) run = rleEncodeAC rest (run + 1) by
        simp [rleEncodeAC, hv, hne]]
      rw [ih (run + 1) (by omega), hv]
      simp [List.replicate_succ' run (0 : Int)]
    · rw [show rleEncodeAC (v :: rest) run = ⟨v, run⟩ :: rleEncodeAC rest 0 by
        simp [rleEncodeAC, hv]]
      rw [decodePairs_cons, ih 0 (by omega)]
      simp

/-- Block-level round trip of the stream semantics, by strong induction on
a length bound. -/
theorem decodePairs_rleEncodeBlocks_bounded (be : Nat) (n : Nat) :
    ∀ seq : List Int, seq.length ≤ n → 0 < be → be ≤ 65536 → seq.length % be = 0 →
      decodePairs (rleEncodeBlocks be seq) = seq := by
  induction n with
  | zero =>
    intro seq hle _ _ _
    have : seq = [] := List.eq_nil_of_length_eq_zero (by omega)
    subst this
    simp [rleEncodeBlocks, decodePairs]
  | succ n ih =>
    intro seq hle hbe hbe2 hlen
    match seq with
    | [] => simp [rleEncodeBlocks, decodePairs]
    | dc :: rest =>
      have hbe_le : be ≤ (dc :: rest).length :=
        Nat.le_of_dvd (by simp) (Nat.dvd_of_mod_eq_zero hlen)
      have hlen1 : (dc :: rest).length = rest.length + 1 := by simp
      have hrest : be - 1 ≤ rest.length := by omega
      have htake : (rest.take (be - 1)).length = be - 1 := by simp [hrest]
      have hdroplen : (rest.drop (be - 1)).length = rest.length - (be - 1) := by simp
      have hdropmod : (rest.drop (be - 1)).length % be = 0 := by
        rcases Nat.dvd_of_mod_eq_zero hlen with ⟨k, hk⟩
        have hkpos : 0 < k := by
          rcases Nat.eq_zero_or_pos k with h0 | h0
          · rw [h0, Nat.mul_zero] at hk; simp at hk
          · exact h0
        have : (rest.drop (be - 1)).length = be * (k - 1) := by
          rw [hdroplen]
          have : rest.length = be * k - 1 := by
            have := hk; simp only [List.length_cons] at this; omega
          rw [this]
          have hbek : be ≤ be * k := Nat.le_mul_of_pos_right be hkpos
          calc be * k - 1 - (be - 1) = be * k - be := by omega
          _ = be * (k - 1) := by rw [Nat.mul_sub, Nat.mul_one]
        rw [this]
        simp [Nat.mul_mod_right]
      rw [rleEncodeBlocks, decodePairs_cons, decodePairs_append]
      rw [decodePairs_rleEncodeAC _ 0 (by rw [htake]; omega)]
      rw [ih (rest.drop (be - 1)) (by rw [hdroplen]; simp only [List.length_cons] at hle; omega)
        hbe hbe2 hdropmod]
      simp [List.take_append_drop]

/-- Block-level round trip of the stream semantics. -/
theorem decodePairs_rleEncodeBlocks (be : Nat) (seq : List Int)
    (hbe : 0 < be) (hbe2 : be ≤ 65536) (hlen : seq.length % be = 0) :
    decodePairs (rleEncodeBlocks be seq) = seq :=
  decodePairs_rleEncodeBlocks_bounded be seq.length seq le_rfl hbe hbe2 hlen

/-- Claim C1 core round trip, stated on the real encoder and decoder. -/
theorem rle_roundtrip (x : List Int) (B : Nat) (hB : B = 8 ∨ B = 16)
    (hmod : x.length % (B * B) = 0) :
    (rle_encode_zeros x B).bind (fun rle => rle_decode_zeros rle B x.length) = .ok x := by
  unfold rle_encode_zeros
  rw [if_neg (not_not_intro hB), if_neg (not_not_intro hmod)]
  have hbe : 0 < B * B ∧ B * B ≤ 65536 := by rcases hB with h | h <;> simp [h]
  have hdec := decodePairs_rleEncodeBlocks (B * B) x hbe.1 hbe.2 hmod
  show rle_decode_zeros (rleEncodeBlocks (B * B) x) B x.length = .ok x
  rw [rle_decode_zeros_eq_decodePairs _ B x.length hB (by rw [hdec]), hdec]

end MCodec

namespace MCodec

/-- **C1.** For every int16 buffer `x` whose length is a positive multiple of
`B*B` with `B ∈ {8, 16}`, `rle_decode_zeros (rle_encode_zeros x B) B x.length`
returns exactly `x` (the `0xFFFF` split cases are vacuously covered: inside an
8×8 or 16×16 block the run counter never reaches `0xFFFF`). -/
theorem C1_rle_decode_encode_roundtrip (x : List Int) (B : Nat)
    (hB : B = 8 ∨ B = 16) (hpos : 0 < x.length) (hmod : x.length % (B * B) = 0) :
    (rle_encode_zeros x B).bind (fun rle => rle_decode_zeros rle B x.length) = .ok x :=
  rle_roundtrip x B hB hmod

/-- Witness for C1 at a concrete buffer: one 8×8 block with a zero AC tail. -/
theorem C1_rle_decode_encode_roundtrip_witness :
    ((8 : Nat) = 8 ∨ (8 : Nat) = 16) ∧
      0 < (List.replicate 63 (0 : Int) ++ [5]).length ∧
      (List.replicate 63 (0 : Int) ++ [5]).length % (8 * 8) = 0 ∧
      (rle_encode_zeros (List.replicate 63 (0 : Int) ++ [5]) 8).bind
        (fun rle => rle_decode_zeros rle 8 (List.replicate 63 (0 : Int) ++ [5]).length) =
        .ok (List.replicate 63 (0 : Int) ++ [5]) :=
  ⟨by decide, by decide, by decide,
    C1_rle_decode_encode_roundtrip (List.replicate 63 (0 : Int) ++ [5]) 8
      (by decide) (by decide) (by decide)⟩

/-! ### Trailing-zero pair lemmas (claim C3) -/

/-- The AC walk over a pure zero tail with `r` pending zeros emits exactly
one pair `(0, r + t - 1)`. -/
theorem rleEncodeAC_replicate_zero (t : Nat) :
    ∀ r : Nat, 0 < t → r + t ≤ 65535 →
      rleEncodeAC (List.replicate t 0) r = [⟨0, r + t - 1⟩] := by
  induction t with
  | zero => intro r ht _; omega
  | succ n ih =>
    intro r _ h
    rw [List.replicate_succ]
    rw [show rleEncodeAC ((0 : Int) :: List.replicate n 0) r =
        rleEncodeAC (List.replicate n 0) (r + 1) by
      simp [rleEncodeAC, show r ≠ 65535 by omega]]
    rcases Nat.eq_zero_or_pos n with h0 | hpos
    · subst h0
      simp only [List.replicate_zero]
      rw [show rleEncodeAC [] (r + 1) = [⟨0, r⟩] by simp [rleEncodeAC]]
      norm_num
    · rw [ih (r + 1) hpos (by omega)]
      congr 2
      omega

/-- Appending a non-empty zero tail after a walk segment that does not end
in a zero adds exactly the single trailing pair `(0, t - 1)`. -/
theorem rleEncodeAC_append_trailing (t : Nat) (ht : 0 < t) :
    ∀ (core : List Int) (r : Nat), core ≠ [] → core.getLast? ≠ some 0 →
      r + core.length + t ≤ 65535 →
      rleEncodeAC (core ++ List.replicate t 0) r =
        rleEncodeAC core r ++ [⟨0, t - 1⟩] := by
  intro core
  induction core with
  | nil => intro r hne _ _; exact absurd rfl hne
  | cons v rest ih =>
    intro r _ hlast h
    cases rest with
    | nil =>
      have hv : v ≠ 0 := by
        intro hv0
        exact hlast (by simp [hv0])
      simp only [List.cons_append, List.nil_append]
      rw [show rleEncodeAC (v :: List.replicate t 0) r =
          ⟨v, r⟩ :: rleEncodeAC (List.replicate t 0) 0 by simp [rleEncodeAC, hv]]
      rw [rleEncodeAC_replicate_zero t 0 ht (by omega)]
      rw [show rleEncodeAC [v] r = [⟨v, r⟩] by simp [rleEncodeAC, hv]]
      simp
    | cons w rest2 =>
      have hlast2 : (w :: rest2).getLast? ≠ some 0 := by
        rwa [List.getLast?_cons_cons] at hlast
      have hlen2 : (v :: w :: rest2).length = (w :: rest2).length + 1 := by simp
      by_cases hv : v = 0
      · subst hv
        rw [List.cons_append]
        rw [show rleEncodeAC ((0 : Int) :: ((w :: rest2) ++ List.replicate t 0)) r =
            rleEncodeAC ((w :: rest2) ++ List.replicate t 0) (r + 1) by
          simp [rleEncodeAC, show r ≠ 65535 by omega]]
        rw [ih (r + 1) (by simp) hlast2 (by simp only [List.length_cons] at h ⊢; omega)]
        rw [show rleEncodeAC ((0 : Int) :: w :: rest2) r =
            rleEncodeAC (w :: rest2) (r + 1) by
          simp [rleEncodeAC, show r ≠ 65535 by omega]]
      · rw [List.cons_append]
        rw [show rleEncodeAC (v :: ((w :: rest2) ++ List.replicate t 0)) r =
            ⟨v, r⟩ :: rleEncodeAC ((w :: rest2) ++ List.replicate t 0) 0 by
          simp [rleEncodeAC, hv]]
        rw [ih 0 (by simp) hlast2 (by simp only [List.length_cons] at h ⊢; omega)]
        rw [show rleEncodeAC (v :: w :: rest2) r =
            ⟨v, r⟩ :: rleEncodeAC (w :: rest2) 0 by simp [rleEncodeAC, hv]]
        rfl

/-- The all-zero 8×8 block encodes as the DC pair `(0, 0)` followed by the
single trailing-zeros pair `(0, 62)`. -/
theorem rle_encode_allzero_block :
    rle_encode_zeros (List.replicate 64 (0 : Int)) 8 = .ok [⟨0, 0⟩, ⟨0, 62⟩] := by
  unfold rle_encode_zeros
  rw [if_neg (not_not_intro (Or.inl rfl)), if_neg (by simp)]
  rw [show (List.replicate 64 (0 : Int)) = 0 :: List.replicate 63 0 from rfl]
  rw [show rleEncodeBlocks (8 * 8) ((0 : Int) :: List.replicate 63 0) =
      (⟨0, 0⟩ : RlePair) :: (rleEncodeAC ((List.replicate 63 (0 : Int)).take (8 * 8 - 1)) 0 ++
        rleEncodeBlocks (8 * 8) ((List.replicate 63 (0 : Int)).drop (8 * 8 - 1))) from by
    simp only [rleEncodeBlocks]]
  have htake : (List.replicate 63 (0 : Int)).take (8 * 8 - 1) = List.replicate 63 0 := by
    simp
  have hdrop : (List.replicate 63 (0 : Int)).drop (8 * 8 - 1) = [] := by
    simp
  rw [htake, hdrop]
  rw [show rleEncodeBlocks (8 * 8) ([] : List Int) = [] from by simp [rleEncodeBlocks]]
  rw [rleEncodeAC_replicate_zero 63 0 (by omega) (by omega)]
  rfl

/-- **C3.** After walking a block whose AC tail ends in `t > 0` zeros (the
pending run counter is then exactly `t`), the encoder emits exactly one
final pair `(0, t - 1)`; decoding that single pair reproduces exactly `t`
zeros; and the all-zero 8×8 block encodes as the DC pair `(0, 0)` followed
by the single trailing-zeros pair `(0, 62)`. -/
theorem C3_trailing_zero_pair (core : List Int) (t : Nat)
    (hcore : core.getLast? ≠ some 0) (ht : 0 < t)
    (hlen : core.length + t ≤ 65535) :
    rleEncodeAC (core ++ List.replicate t 0) 0 =
        rleEncodeAC core 0 ++ [⟨0, t - 1⟩] ∧
      rle_decode_zeros [⟨0, t - 1⟩] 8 t = .ok (List.replicate t 0) ∧
      rle_encode_zeros (List.replicate 64 (0 : Int)) 8 = .ok [⟨0, 0⟩, ⟨0, 62⟩] := by
  have hdec : decodePairs [⟨0, t - 1⟩] = List.replicate t 0 := by
    have : t - 1 + 1 = t := by omega
    simp [decodePairs, ← List.replicate_succ' (t - 1) (0 : Int), this]
  refine ⟨?_, ?_, ?_⟩
  · cases core with
    | nil =>
      simp only [List.nil_append]
      rw [rleEncodeAC_replicate_zero t 0 ht (by omega)]
      rw [show rleEncodeAC ([] : List Int) 0 = [] by simp [rleEncodeAC]]
      simp
    | cons v rest =>
      exact rleEncodeAC_append_trailing t ht (v :: rest) 0 (by simp) hcore
        (by simpa using hlen)
  · rw [rle_decode_zeros_eq_decodePairs _ 8 t (Or.inl rfl) (by rw [hdec]; simp), hdec]
  · exact rle_encode_allzero_block

/-- Witness for C3: a block tail `[3, 0, 0]` (one nonzero AC, two trailing
zeros). -/
theorem C3_trailing_zero_pair_witness :
    (([3] : List Int).getLast? ≠ some 0) ∧ 0 < 2 ∧ ([3] : List Int).length + 2 ≤ 65535 ∧
      (rleEncodeAC ([3] ++ List.replicate 2 0) 0 =
          rleEncodeAC [3] 0 ++ [⟨0, 1⟩] ∧
        rle_decode_zeros [⟨0, 1⟩] 8 2 = .ok (List.replicate 2 0) ∧
        rle_encode_zeros (List.replicate 64 (0 : Int)) 8 = .ok [⟨0, 0⟩, ⟨0, 62⟩]) :=
  ⟨by decide, by decide, by decide, C3_trailing_zero_pair [3] 2 (by decide) (by decide) (by decide)⟩

/-! ### Level-shift validation (claim C9) -/

/-- Counterexample to C9 as stated: on an image with an empty pixel buffer
and `bits_stored = 20 ∉ [1, 16]`, both level-shift routines return
successfully (the empty-buffer early return precedes the validation), so
the claimed hard error does not occur. -/
theorem C9_counterexample_empty_image :
    (imgEmptyBits20.bits_stored < 1 ∨ 16 < imgEmptyBits20.bits_stored) ∧
      imgEmptyBits20.pixels = [] ∧
      apply_level_shift imgEmptyBits20 = .ok imgEmptyBits20 ∧
      inverse_level_shift imgEmptyBits20 = .ok imgEmptyBits20 :=
  ⟨by decide, rfl, rfl, rfl⟩

/-- **C9 (amended).** `apply_level_shift` and `inverse_level_shift` raise a
hard error whenever `bits_stored ∉ [1, 16]` and the pixel buffer is
non-empty; an image with an empty pixel buffer is returned unchanged
without any error. -/
theorem C9_level_shift_rejects_bad_bits_stored (img : Image)
    (hne : img.pixels ≠ [])
    (hbad : img.bits_stored < 1 ∨ 16 < img.bits_stored) :
    apply_level_shift img = .error "apply_level_shift: invalid bits_stored" ∧
      inverse_level_shift img = .error "inverse_level_shift: invalid bits_stored" := by
  unfold apply_level_shift inverse_level_shift
  rw [if_neg hne, if_pos (by omega), if_neg hne, if_pos (by omega)]
  exact ⟨rfl, rfl⟩

/-- Witness for the amended C9 at a concrete one-pixel image with
`bits_stored = 0`. -/
theorem C9_level_shift_rejects_bad_bits_stored_witness :
    (imgOnePixelBits0.pixels ≠ []) ∧
      (imgOnePixelBits0.bits_stored < 1 ∨ 16 < imgOnePixelBits0.bits_stored) ∧
      (apply_level_shift imgOnePixelBits0 =
          .error "apply_level_shift: invalid bits_stored" ∧
        inverse_level_shift imgOnePixelBits0 =
          .error "inverse_level_shift: invalid bits_stored") :=
  ⟨by decide, by decide,
    C9_level_shift_rejects_bad_bits_stored imgOnePixelBits0 (by decide) (by decide)⟩

/-! ### Quantizer contract (claim C4) -/

/-- `Forall₂` between two replicated lists of the same length. -/
theorem forall₂_replicate {α β : Type} (R : α → β → Prop) (n : Nat) (a : α) (b : β)
    (h : R a b) : List.Forall₂ R (List.replicate n a) (List.replicate n b) := by
  induction n with
  | zero => simp
  | succ m ih => simpa [List.replicate_succ] using List.Forall₂.cons h ih

/-- **C4.** `quant_step_from_quality quality = clamp(101 - quality, 1, 100)`;
`quantize` computes elementwise the int16-saturated round of `coeff / step`
(recorded by the relation itself), and composing with `dequantize` yields
exactly `q16 * step` elementwise — in particular within the claimed
`1e-6 * step` tolerance. -/
theorem C4_quantizer_contract (x : List ℝ) (B : Nat) (quality : Int)
    (qc : List Int) (dq : List ℝ)
    (hq : quantize x B quality (.ok qc))
    (hd : dequantize qc B quality (.ok dq)) :
    quant_step_from_quality quality = max 1 (min 100 (101 - quality)) ∧
      List.Forall₂ (fun c o => ∃ q : Int,
        IsRoundHalfAway (c * (1 / (quant_step_from_quality quality : ℝ))) q ∧
          o = clampToInt16 q) x qc ∧
      List.Forall₂ (fun q o =>
        o = (q : ℝ) * (quant_step_from_quality quality : ℝ) ∧
          |o - (q : ℝ) * (quant_step_from_quality quality : ℝ)| ≤
            (1 / 1000000) * (quant_step_from_quality quality : ℝ)) qc dq := by
  have hstep : quant_step_from_quality quality = max 1 (min 100 (101 - quality)) := by
    unfold quant_step_from_quality
    dsimp only
    split <;> split <;> omega
  have hstep1 : 1 ≤ quant_step_from_quality quality := by rw [hstep]; omega
  have hstepR : (0 : ℝ) ≤ (quant_step_from_quality quality : ℝ) := by
    exact_mod_cast le_trans (by omega) hstep1
  unfold quantize at hq
  unfold dequantize at hd
  split at hq
  · exact absurd hq (by simp)
  split at hq
  · exact absurd hq (by simp)
  split at hd
  · exact absurd hd (by simp)
  split at hd
  · exact absurd hd (by simp)
  obtain ⟨outq, houtq, hfq⟩ := hq
  obtain ⟨outd, houtd, hfd⟩ := hd
  obtain rfl : qc = outq := Except.ok.inj houtq
  obtain rfl : dq = outd := Except.ok.inj houtd
  refine ⟨hstep, hfq, hfd.imp ?_⟩
  intro q o ho
  refine ⟨ho, ?_⟩
  rw [ho, sub_self, abs_zero]
  positivity

/-! ### Single-symbol Huffman (claim C8) -/

/-- Zero-frequency entries contribute nothing to the leaf heap. -/
theorem heapFoldZero (k : Nat) :
    ∀ (j : Nat) (pq : List HTree),
      ((List.replicate k (0 : Nat)).enumFrom j).foldl
        (fun pq p => if p.2 = 0 then pq else heapPush (.leaf p.2 p.1) pq) pq = pq := by
  induction k with
  | zero => intro j pq; rfl
  | succ m ih =>
    intro j pq
    rw [List.replicate_succ, List.enumFrom_cons, List.foldl_cons]
    simp only [if_pos rfl]
    exact ih (j + 1) pq

/-- Setting entry `s` of a constant list splits it around the written
position. -/
theorem set_replicate_split {α : Type} (s k : Nat) (c v : α) (h : s < k) :
    (List.replicate k c).set s v =
      List.replicate s c ++ v :: List.replicate (k - s - 1) c := by
  obtain ⟨m, rfl⟩ : ∃ m, k = s + (m + 1) := ⟨k - s - 1, by omega⟩
  rw [List.replicate_add, List.replicate_succ]
  rw [List.set_append_right _ _ (by simp)]
  simp

/-- The leaf heap of a frequency vector with a single nonzero entry is the
single corresponding leaf. -/
theorem heapOfLeaves_single (k s n : Nat) (hsk : s < k) (hn : n ≠ 0) :
    heapOfLeaves ((List.replicate k 0).set s n) = [.leaf n s] := by
  rw [set_replicate_split s k 0 n hsk]
  unfold heapOfLeaves
  rw [List.enum_append]
  rw [List.foldl_append]
  rw [show (List.replicate s (0 : Nat)).enum = (List.replicate s (0 : Nat)).enumFrom 0 from rfl]
  rw [heapFoldZero s 0 []]
  rw [List.enumFrom_cons, List.foldl_cons]
  simp only [if_neg hn, List.length_replicate]
  rw [show heapPush (.leaf n s) [] = [.leaf n s] from rfl]
  exact heapFoldZero _ _ _

/-- `getD` of a replicate inside bounds. -/
theorem getD_replicate_lt {α : Type} (k i : Nat) (a d : α) (h : i < k) :
    (List.replicate k a).getD i d = a := by
  rw [List.getD_eq_getElem?_getD, List.getElem?_replicate_of_lt h]
  rfl

/-- `getD` after `set` at the written position. -/
theorem getD_set_self {α : Type} (l : List α) (i : Nat) (v d : α) (h : i < l.length) :
    (l.set i v).getD i d = v := by
  rw [List.getD_eq_getElem?_getD, List.getElem?_set_self h]
  rfl

/-- The frequency-accumulation loop on the single pair `(s, n)`. -/
theorem accFreqs_single (s n : Nat) (hn : n ≠ 0) (hov : n ≤ 4294967295) :
    accFreqs [(s, n)] (List.replicate (s + 1) 0) =
      .ok ((List.replicate (s + 1) 0).set s n) := by
  unfold accFreqs
  rw [if_neg hn]
  simp only [getD_replicate_lt (s + 1) s 0 0 (by omega), Nat.zero_add]
  rw [if_neg (by omega)]
  exact congrArg _ rfl

/-- `build_canonical_table` on a single-symbol histogram. -/
theorem build_canonical_table_single (s n : Nat) (hn : n ≠ 0) (hov : n ≤ 4294967295) :
    build_canonical_table [(s, n)] = .ok (singleSymHuffTable s) := by
  unfold build_canonical_table
  rw [if_neg (by simp)]
  have hfilter : ([(s, n)].filter fun sf => sf.2 ≠ 0) = [(s, n)] := by
    simp [hn]
  simp only [hfilter]
  rw [if_neg (by simp)]
  simp only [List.map_cons, List.map_nil, List.foldl_cons, List.foldl_nil, Nat.zero_max]
  rw [accFreqs_single s n hn hov]
  simp only [heapOfLeaves_single (s + 1) s n (by omega) hn]
  rw [dif_pos (show [HTree.leaf n s].length = 1 from rfl)]
  simp only [List.head_cons, HTree.symbol, List.length_set, List.length_replicate]
  rfl

/-- `insertionSort` of a singleton list. -/
theorem insertionSort_singleton {α : Type} (r : α → α → Prop) [DecidableRel r] (a : α) :
    List.insertionSort r [a] = [a] := rfl

/-- Inserting the single code `0` of length 1 for symbol `s` into a fresh
table: the encode entry is set and the trie gains the root-left terminal. -/
theorem tableInsertStep_single (msg : String) (s : Nat) (enc0 : List EncEntry)
    (h : s < enc0.length) :
    tableInsertStep msg (enc0, [({} : HNode)]) (s, 0, 1) =
      .ok (enc0.set s ⟨0, 1, true⟩, [{ left := some 1 }, { symbol := some s }]) := by
  have htrie : trieInsert [({} : HNode)] 0 1 s msg =
      .ok [{ left := some 1 }, { symbol := some s }] := rfl
  have henc : encResize enc0 (s + 1) = enc0 := by
    unfold encResize
    rw [if_pos (by omega)]
  simp only [tableInsertStep, henc, htrie]

/-- `build_table_from_code_lengths` on the single entry `(s, 1)` produces
the same table — in particular the same decode-trie shape. -/
theorem build_table_from_code_lengths_single (s : Nat) :
    build_table_from_code_lengths [(s, 1)] = .ok (singleSymHuffTable s) := by
  unfold build_table_from_code_lengths
  rw [if_neg (by simp), if_neg (not_not_intro (by simp))]
  simp only [sortByLenSym, insertionSort_singleton]
  simp only [canonAssign, canonAssignGo, ne_eq, not_true_eq_false, if_neg,
    ite_false, ite_self]
  simp only [List.map_cons, List.map_nil, List.foldl_cons, List.foldl_nil, Nat.zero_max]
  rw [List.foldlM_cons,
    tableInsertStep_single "decode: duplicate code assignment" s _ (by simp)]
  rfl

/-- `Except.ok` followed by `bind` reduces. -/
theorem except_ok_bind {α β : Type} (x : α) (f : α → Except String β) :
    (Except.ok x >>= f) = f x := rfl

/-- Pushing a zero bit onto a zero-bits writer state. -/
theorem bwPushBit_zero (k : Nat) : bwPushBit (bwZeroState k) 0 = bwZeroState (k + 1) := by
  unfold bwPushBit bwZeroState
  by_cases h : k % 8 + 1 = 8
  · rw [if_pos h]
    have h1 : (k + 1) / 8 = k / 8 + 1 := by omega
    have h2 : (k + 1) % 8 = 0 := by omega
    rw [h1, h2]
    rw [show (0 * 2 + 0) % 256 = 0 from rfl, ← List.replicate_succ']
  · rw [if_neg h]
    have h1 : (k + 1) / 8 = k / 8 := by omega
    have h2 : (k + 1) % 8 = k % 8 + 1 := by omega
    rw [h1, h2]
    simp

/-- Emitting the single-symbol table's code for `s` is a one-bit zero
write. -/
theorem huffEncodeStep_single (s : Nat) (st : BitWriterState) :
    huffEncodeStep (singleSymHuffTable s) st s = write_bits st 0 1 := by
  have hget : (singleSymHuffTable s).enc.getD s {} = ⟨0, 1, true⟩ := by
    unfold singleSymHuffTable
    exact getD_set_self _ s _ _ (by simp)
  have hlen : (singleSymHuffTable s).enc.length = s + 1 := by
    simp [singleSymHuffTable]
  unfold huffEncodeStep
  simp only [hget, hlen]
  rw [if_neg (by simp)]

/-- A one-bit zero write on a zero-bits state. -/
theorem write_bits_zero_one (k : Nat) :
    write_bits (bwZeroState k) 0 1 = .ok (bwZeroState (k + 1)) := by
  unfold write_bits
  rw [if_neg (by omega)]
  rw [show bwWriteBitsAux 0 ((List.range 1).reverse) (bwZeroState k) =
      bwPushBit (bwZeroState k) 0 from rfl]
  rw [bwPushBit_zero]

/-- Folding the single-symbol encode step over a constant stream. -/
theorem encodeFold_single (s m : Nat) :
    ∀ k, (List.replicate m s).foldlM (huffEncodeStep (singleSymHuffTable s))
        (bwZeroState k) = .ok (bwZeroState (k + m)) := by
  induction m with
  | zero => intro k; rfl
  | succ m ih =>
    intro k
    rw [List.replicate_succ, List.foldlM_cons, huffEncodeStep_single,
      write_bits_zero_one, except_ok_bind, ih (k + 1)]
    rw [show k + 1 + m = k + (m + 1) by omega]

/-- Flushing a zero-bits state yields `⌈k/8⌉` zero bytes. -/
theorem bwFlush_zero (n : Nat) :
    (bwFlush (bwZeroState n)).data = List.replicate ((n + 7) / 8) 0 := by
  unfold bwFlush bwZeroState
  by_cases h : n % 8 > 0
  · rw [if_pos h]
    show List.replicate (n / 8) 0 ++ [(0 * 2 ^ (8 - n % 8)) % 256] = _
    rw [show (0 * 2 ^ (8 - n % 8)) % 256 = 0 by simp, ← List.replicate_succ']
    rw [show (n + 7) / 8 = n / 8 + 1 by omega]
  · rw [if_neg h]
    show List.replicate (n / 8) 0 = _
    rw [show (n + 7) / 8 = n / 8 by omega]

/-- The frequency-counting fold on a constant stream. -/
theorem bumpFold_single (s m : Nat) :
    ∀ k, 0 < k → k + m ≤ 4294967295 →
      (List.replicate m s).foldlM bumpFreq [(s, k)] = .ok [(s, k + m)] := by
  induction m with
  | zero => intro k _ _; rfl
  | succ m ih =>
    intro k hk h
    rw [List.replicate_succ, List.foldlM_cons]
    rw [show bumpFreq [(s, k)] s = .ok [(s, k + 1)] by
      unfold bumpFreq
      rw [if_pos rfl, if_neg (by omega)]]
    rw [except_ok_bind, ih (k + 1) (by omega) (by omega)]
    rw [show k + 1 + m = k + (m + 1) by omega]

/-- `build_symbol_frequencies` of a constant stream of length `n`. -/
theorem build_symbol_frequencies_single (s n : Nat) (hn : 0 < n)
    (hov : n ≤ 4294967295) :
    build_symbol_frequencies (List.replicate n s) = .ok [(s, n)] := by
  unfold build_symbol_frequencies
  obtain ⟨m, rfl⟩ : ∃ m, n = m + 1 := ⟨n - 1, by omega⟩
  rw [List.replicate_succ, List.foldlM_cons]
  rw [show bumpFreq [] s = .ok [(s, 1)] from rfl]
  rw [except_ok_bind, bumpFold_single s m 1 (by omega) (by omega)]
  rw [show (1 : Nat) + m = m + 1 by omega]
  rfl

/-- `huff_encode` of a constant stream: the single-symbol table paired with
`⌈n/8⌉` zero bytes. -/
theorem huff_encode_single (s n : Nat) (hn : 0 < n) (hov : n < 4294967296) :
    huff_encode (List.replicate n s) =
      .ok (singleSymHuffTable s, List.replicate ((n + 7) / 8) 0) := by
  unfold huff_encode
  rw [if_neg (by
    intro h
    have := congrArg List.length h
    simp at this
    omega)]
  simp only [build_symbol_frequencies_single s n hn (by omega)]
  simp only [build_canonical_table_single s n (by omega) (by omega)]
  rw [show ({} : BitWriterState) = bwZeroState 0 from rfl]
  simp only [encodeFold_single s n 0, Nat.zero_add]
  simp only [bwFlush_zero]

/-- One trie walk on the single-symbol table consumes one zero bit and
returns the symbol. -/
theorem huffDecodeOne_single (s L p : Nat) (h : p / 8 < L) :
    huffDecodeOne (singleSymHuffTable s) 0 ⟨List.replicate L 0, p⟩ =
      .ok (s, ⟨List.replicate L 0, p + 1⟩) := by
  have hread : read_bit ⟨List.replicate L 0, p⟩ =
      .ok (false, ⟨List.replicate L 0, p + 1⟩) := by
    unfold read_bit
    rw [if_neg (by simp only [List.length_replicate]; omega)]
    simp only [getD_replicate_lt L (p / 8) 0 0 h]
    simp
  have hstep1 : huffDecodeOne (singleSymHuffTable s) 1 ⟨List.replicate L 0, p + 1⟩ =
      .ok (s, ⟨List.replicate L 0, p + 1⟩) := by
    unfold huffDecodeOne
    rw [if_neg (by simp [singleSymHuffTable])]
    rfl
  unfold huffDecodeOne
  rw [if_neg (by simp [singleSymHuffTable])]
  split
  · rename_i e heq
    rw [hread] at heq
    simp at heq
  · rename_i bit rs2 heq
    rw [hread] at heq
    simp only [Except.ok.injEq, Prod.mk.injEq] at heq
    obtain ⟨rfl, rfl⟩ := heq
    simpa [singleSymHuffTable] using hstep1

/-- The decode loop on the single-symbol table over zero bytes. -/
theorem huffDecodeLoop_single (s L m : Nat) :
    ∀ (p : Nat) (out : List Nat), p + m ≤ 8 * L →
      huffDecodeLoop (singleSymHuffTable s) m ⟨List.replicate L 0, p⟩ out =
        .ok (out ++ List.replicate m s) := by
  induction m with
  | zero => intro p out _; simp [huffDecodeLoop]
  | succ m ih =>
    intro p out h
    rw [huffDecodeLoop]
    simp only [huffDecodeOne_single s L p (by omega)]
    rw [ih (p + 1) (out ++ [s]) (by omega)]
    rw [List.append_assoc]
    rw [show [s] ++ List.replicate m s = List.replicate (m + 1) s from rfl]

/-- `huff_decode` of the zero-byte stream with the single-symbol table. -/
theorem huff_decode_single (s n : Nat) (hn : 0 < n) :
    huff_decode (List.replicate ((n + 7) / 8) 0) (singleSymHuffTable s) n =
      .ok (List.replicate n s) := by
  unfold huff_decode
  have h := huffDecodeLoop_single s ((n + 7) / 8) n 0 [] (by omega)
  simpa using h

/-! ### Two-symbol Huffman tables (used by the concrete container
round-trips) -/

/-- `getD` after `set` at a different position. -/
theorem getD_set_ne {α : Type} (l : List α) (i j : Nat) (v d : α) (h : i ≠ j) :
    (l.set i v).getD j d = l.getD j d := by
  rw [List.getD_eq_getElem?_getD, List.getD_eq_getElem?_getD,
    List.getElem?_set_ne h]

/-- Frequency accumulation of two unit-frequency symbols `a < b`. -/
theorem accFreqs_two (a b : Nat) (hab : a < b) :
    accFreqs [(a, 1), (b, 1)] (List.replicate (b + 1) 0) =
      .ok (((List.replicate (b + 1) 0).set a 1).set b 1) := by
  unfold accFreqs
  rw [if_neg (by omega)]
  rw [getD_replicate_lt (b + 1) a 0 0 (by omega)]
  rw [if_neg (by omega)]
  unfold accFreqs
  rw [if_neg (by omega)]
  rw [getD_set_ne _ a b 1 0 (by omega), getD_replicate_lt (b + 1) b 0 0 (by omega)]
  rw [if_neg (by omega)]
  rfl

/-- The double-set frequency vector splits into three runs. -/
theorem twoSetSplit {α : Type} (a b : Nat) (z x y : α) (hab : a < b) :
    ((List.replicate (b + 1) z).set a x).set b y =
      List.replicate a z ++ x :: (List.replicate (b - a - 1) z ++ [y]) := by
  rw [set_replicate_split a (b + 1) z x (by omega)]
  rw [List.set_append_right _ _ (by simp; omega)]
  simp only [List.length_replicate]
  rw [show b - a = (b - a - 1) + 1 by omega]
  rw [List.set_cons_succ]
  rw [show (b + 1) - a - 1 = (b - a - 1) + 1 by omega, List.replicate_succ']
  rw [List.set_append_right _ _ (by simp)]
  simp

/-- The leaf heap of the two-unit-frequency vector. -/
theorem heapOfLeaves_two (a b : Nat) (hab : a < b) :
    heapOfLeaves (((List.replicate (b + 1) 0).set a 1).set b 1) =
      [.leaf 1 a, .leaf 1 b] := by
  rw [twoSetSplit a b 0 1 1 hab]
  unfold heapOfLeaves
  rw [List.enum_append]
  rw [List.foldl_append]
  rw [show (List.replicate a (0 : Nat)).enum = (List.replicate a (0 : Nat)).enumFrom 0 from rfl]
  rw [heapFoldZero a 0 []]
  rw [List.enumFrom_cons, List.foldl_cons]
  simp only [if_neg (by omega : ¬(1 : Nat) = 0), List.length_replicate]
  rw [show heapPush (.leaf 1 a) [] = [.leaf 1 a] from rfl]
  rw [List.enumFrom_append]
  rw [List.foldl_append]
  rw [heapFoldZero (b - a - 1) (a + 1) [HTree.leaf 1 a]]
  rw [List.enumFrom_cons]
  simp only [List.foldl_cons, List.foldl_nil, if_neg (by omega : ¬(1 : Nat) = 0)]
  simp only [List.length_replicate]
  rw [show a + 1 + (b - a - 1) = b by omega]
  rw [show heapPush (.leaf 1 b) [HTree.leaf 1 a] = [HTree.leaf 1 a, HTree.leaf 1 b] by
    unfold heapPush
    rw [if_neg (by
      simp only [HTree.freq, HTree.symbol]
      omega)]
    rfl]
  rfl

/-- The merge loop on two equal-frequency leaves. -/
theorem huffMergeLoop_two (a b : Nat) (hab : a < b) :
    huffMergeLoop [.leaf 1 a, .leaf 1 b] =
      some (.node 2 a (.leaf 1 a) (.leaf 1 b)) := by
  rw [huffMergeLoop]
  rw [show (HTree.leaf 1 a).freq = 1 from rfl, show (HTree.leaf 1 b).freq = 1 from rfl,
    show (HTree.leaf 1 a).symbol = a from rfl, show (HTree.leaf 1 b).symbol = b from rfl]
  rw [show ((1 : Nat) + 1) % 2 ^ 32 = 2 by norm_num]
  rw [show min a b = a by omega]
  rw [show heapPush (.node 2 a (.leaf 1 a) (.leaf 1 b)) [] =
    [HTree.node 2 a (.leaf 1 a) (.leaf 1 b)] from rfl]
  rw [huffMergeLoop]

/-- Code lengths of the two-leaf tree. -/
theorem huffLens_two (a b : Nat) :
    huffLens (.node 2 a (.leaf 1 a) (.leaf 1 b)) 0 = .ok [(a, 1), (b, 1)] := rfl

/-- Sorting two entries of equal length and ascending symbols. -/
theorem sortByLenSym_two (a b la lb : Nat) (h : la < lb ∨ (la = lb ∧ a ≤ b)) :
    sortByLenSym [(a, la), (b, lb)] = [(a, la), (b, lb)] := by
  unfold sortByLenSym
  show List.orderedInsert _ (a, la) (List.orderedInsert _ (b, lb) []) = _
  rw [List.orderedInsert_nil]
  unfold List.orderedInsert
  rw [if_pos h]

/-- Canonical assignment over two length-1 entries: codes 0 and 1. -/
theorem canonAssign_two (a b : Nat) :
    canonAssign [(a, 1), (b, 1)] = [(a, 0, 1), (b, 1, 1)] := by
  simp [canonAssign, canonAssignGo]

/-- Inserting code 1 (length 1) after code 0 (length 1). -/
theorem trieInsert_second (a b : Nat) (msg : String) :
    trieInsert [{ left := some 1 }, { symbol := some a }] 1 1 b msg =
      .ok [{ left := some 1, right := some 2 }, { symbol := some a },
        { symbol := some b }] := rfl

/-- The two-entry table fold. -/
theorem tableFold_two (a b : Nat) (hab : a < b) (msg : String) :
    List.foldlM (tableInsertStep msg)
        (List.replicate (b + 1) ({} : EncEntry), [({} : HNode)]) [(a, 0, 1), (b, 1, 1)] =
      .ok (((List.replicate (b + 1) ({} : EncEntry)).set a ⟨0, 1, true⟩).set b ⟨1, 1, true⟩,
        [{ left := some 1, right := some 2 }, { symbol := some a }, { symbol := some b }]) := by
  rw [List.foldlM_cons]
  rw [show tableInsertStep msg (List.replicate (b + 1) ({} : EncEntry), [({} : HNode)]) (a, 0, 1) =
      .ok ((List.replicate (b + 1) ({} : EncEntry)).set a ⟨0, 1, true⟩,
        [{ left := some 1 }, { symbol := some a }]) by
    have htrie : trieInsert [({} : HNode)] 0 1 a msg =
        .ok [{ left := some 1 }, { symbol := some a }] := rfl
    have henc : encResize (List.replicate (b + 1) ({} : EncEntry)) (a + 1) =
        List.replicate (b + 1) ({} : EncEntry) := by
      unfold encResize
      rw [if_pos (by simp; omega)]
    simp only [tableInsertStep, henc, htrie]]
  rw [except_ok_bind, List.foldlM_cons]
  rw [show tableInsertStep msg
      ((List.replicate (b + 1) ({} : EncEntry)).set a ⟨0, 1, true⟩,
        [{ left := some 1 }, { symbol := some a }]) (b, 1, 1) =
      .ok (((List.replicate (b + 1) ({} : EncEntry)).set a ⟨0, 1, true⟩).set b ⟨1, 1, true⟩,
        [{ left := some 1, right := some 2 }, { symbol := some a }, { symbol := some b }]) by
    have henc : encResize ((List.replicate (b + 1) ({} : EncEntry)).set a ⟨0, 1, true⟩)
        (b + 1) = (List.replicate (b + 1) ({} : EncEntry)).set a ⟨0, 1, true⟩ := by
      unfold encResize
      rw [if_pos (by simp)]
    simp only [tableInsertStep, henc, trieInsert_second]]
  rfl

/-- `build_canonical_table` on the two-unit-frequency histogram. -/
theorem build_canonical_table_two (a b : Nat) (hab : a < b) :
    build_canonical_table [(a, 1), (b, 1)] = .ok (twoSymHuffTable a b) := by
  unfold build_canonical_table
  rw [if_neg (by simp)]
  have hfilter : ([(a, 1), (b, 1)].filter fun sf => sf.2 ≠ 0) = [(a, 1), (b, 1)] := by
    simp
  simp only [hfilter]
  rw [if_neg (by simp)]
  simp only [List.map_cons, List.map_nil, List.foldl_cons, List.foldl_nil, Nat.zero_max]
  rw [show max a b = b by omega]
  simp only [accFreqs_two a b hab]
  simp only [heapOfLeaves_two a b hab]
  rw [dif_neg (by simp)]
  simp only [huffMergeLoop_two a b hab]
  simp only [huffLens_two a b]
  rw [sortByLenSym_two a b 1 1 (Or.inr ⟨rfl, by omega⟩), canonAssign_two]
  simp only [List.length_set, List.length_replicate]
  simp only [tableFold_two a b hab]
  rfl

/-- `build_table_from_code_lengths` on the same two entries rebuilds the
identical table. -/
theorem build_table_from_code_lengths_two (a b : Nat) (hab : a < b) :
    build_table_from_code_lengths [(a, 1), (b, 1)] = .ok (twoSymHuffTable a b) := by
  unfold build_table_from_code_lengths
  rw [if_neg (by simp), if_neg (not_not_intro (by simp))]
  rw [sortByLenSym_two a b 1 1 (Or.inr ⟨rfl, by omega⟩), canonAssign_two]
  simp only [List.map_cons, List.map_nil, List.foldl_cons, List.foldl_nil, Nat.zero_max]
  rw [show max a b = b by omega]
  simp only [tableFold_two a b hab]
  rfl

/-- `build_symbol_frequencies` of the two-element stream `[a, b]`. -/
theorem build_symbol_frequencies_two (a b : Nat) (hab : a < b) :
    build_symbol_frequencies [a, b] = .ok [(a, 1), (b, 1)] := by
  unfold build_symbol_frequencies
  rw [show List.foldlM bumpFreq [] [a, b] = .ok [(a, 1), (b, 1)] by
    rw [List.foldlM_cons]
    rw [show bumpFreq [] a = .ok [(a, 1)] from rfl]
    rw [except_ok_bind, List.foldlM_cons]
    rw [show bumpFreq [(a, 1)] b = .ok [(a, 1), (b, 1)] by
      unfold bumpFreq
      rw [if_neg (by omega)]
      rw [show bumpFreq [] b = .ok [(b, 1)] from rfl]]
    rfl]
  show Except.ok (([(a, 1), (b, 1)] : List (Nat × Nat)).insertionSort fun p q => p.1 ≤ q.1) = _
  rw [show ([(a, 1), (b, 1)] : List (Nat × Nat)).insertionSort (fun p q => p.1 ≤ q.1) =
      [(a, 1), (b, 1)] by
    show List.orderedInsert _ (a, 1) (List.orderedInsert _ (b, 1) []) = _
    rw [List.orderedInsert_nil]
    unfold List.orderedInsert
    rw [if_pos (by omega : (a : Nat) ≤ b)]]

/-- Default (invalid) encode entries are dropped by the used-symbol
filter. -/
theorem filterEnumDefault (k : Nat) :
    ∀ j, (((List.replicate k ({} : EncEntry)).enumFrom j).filter
      fun p => p.2.valid ∧ p.2.len > 0) = [] := by
  induction k with
  | zero => intro j; rfl
  | succ m ih =>
    intro j
    rw [List.replicate_succ, List.enumFrom_cons, List.filter_cons]
    rw [if_neg (by simp)]
    exact ih (j + 1)

/-- The used-symbol table section of the two-symbol table. -/
theorem collectTableEntries_two (a b : Nat) (hab : a < b) :
    collectTableEntries
        (((List.replicate (b + 1) ({} : EncEntry)).set a ⟨0, 1, true⟩).set b ⟨1, 1, true⟩) =
      [(a, 1), (b, 1)] := by
  unfold collectTableEntries
  rw [twoSetSplit a b ({} : EncEntry) ⟨0, 1, true⟩ ⟨1, 1, true⟩ hab]
  rw [List.enum_append, List.filter_append]
  rw [show (List.replicate a ({} : EncEntry)).enum =
      (List.replicate a ({} : EncEntry)).enumFrom 0 from rfl]
  rw [filterEnumDefault a 0]
  rw [List.enumFrom_cons, List.filter_cons]
  rw [if_pos (by simp)]
  simp only [List.length_replicate]
  rw [List.enumFrom_append, List.filter_append, filterEnumDefault (b - a - 1) (a + 1)]
  simp only [List.length_replicate]
  rw [show a + 1 + (b - a - 1) = b by omega]
  rw [List.enumFrom_cons, List.filter_cons]
  rw [if_pos (by simp)]
  simp only [List.nil_append, List.filter_nil, List.map_cons, List.map_nil]
  show sortByLenSym [(a, 1), (b, 1)] = _
  exact sortByLenSym_two a b 1 1 (Or.inr ⟨rfl, by omega⟩)

/-- `huff_encode` of the two-symbol stream `[a, b]`: the two-symbol table
and the single byte `0b01000000`. -/
theorem huff_encode_two (a b : Nat) (hab : a < b) :
    huff_encode [a, b] = .ok (twoSymHuffTable a b, [64]) := by
  have hencab : (twoSymHuffTable a b).enc =
      ((List.replicate (b + 1) ({} : EncEntry)).set a ⟨0, 1, true⟩).set b ⟨1, 1, true⟩ := rfl
  unfold huff_encode
  rw [if_neg (by simp)]
  simp only [build_symbol_frequencies_two a b hab]
  simp only [build_canonical_table_two a b hab]
  rw [show List.foldlM (huffEncodeStep (twoSymHuffTable a b)) {} [a, b] =
      .ok ⟨[], 1, 2⟩ by
    rw [List.foldlM_cons]
    rw [show huffEncodeStep (twoSymHuffTable a b) {} a = .ok ⟨[], 0, 1⟩ by
      unfold huffEncodeStep
      have hget : (twoSymHuffTable a b).enc.getD a {} = ⟨0, 1, true⟩ := by
        rw [hencab, getD_set_ne _ b a _ _ (by omega),
          getD_set_self _ a _ _ (by simp; omega)]
      have hlen : (twoSymHuffTable a b).enc.length = b + 1 := by
        rw [hencab]; simp
      simp only [hget, hlen]
      rw [if_neg (by simp; omega)]
      rfl]
    rw [except_ok_bind, List.foldlM_cons]
    rw [show huffEncodeStep (twoSymHuffTable a b) ⟨[], 0, 1⟩ b = .ok ⟨[], 1, 2⟩ by
      unfold huffEncodeStep
      have hget : (twoSymHuffTable a b).enc.getD b {} = ⟨1, 1, true⟩ := by
        rw [hencab, getD_set_self _ b _ _ (by simp)]
      have hlen : (twoSymHuffTable a b).enc.length = b + 1 := by
        rw [hencab]; simp
      simp only [hget, hlen]
      rw [if_neg (by simp)]
      rfl]
    rfl]
  rfl

/-- The zigzag scan of an all-zero 8×8 buffer is all-zero. -/
theorem zigzag_scan_zeros :
    zigzag_scan_blocks (List.replicate 64 0) 8 = .ok (List.replicate 64 0) := by
  unfold zigzag_scan_blocks
  rw [if_neg (by norm_num), if_neg (by simp)]
  simp only [show make_zigzag_order 8 = .ok zigzagOrder8 from rfl]
  rw [show List.replicate 64 (0 : Int) = 0 :: List.replicate 63 0 from rfl]
  rw [show zigzagGatherBlocks zigzagOrder8 (8 * 8) ((0 : Int) :: List.replicate 63 0) =
      (zigzagOrder8.map fun idx =>
        (((0 : Int) :: List.replicate 63 0).take (8 * 8)).getD idx 0) ++
        zigzagGatherBlocks zigzagOrder8 (8 * 8) ((List.replicate 63 (0 : Int)).drop (8 * 8 - 1))
      by simp only [zigzagGatherBlocks]]
  rw [show (List.replicate 63 (0 : Int)).drop (8 * 8 - 1) = [] by simp]
  rw [show zigzagGatherBlocks zigzagOrder8 (8 * 8) ([] : List Int) = [] by
    simp only [zigzagGatherBlocks]]
  rw [List.append_nil]
  exact congrArg Except.ok (by decide)

/-! ### The concrete encode of the constant-128 image (claims C5–C7) -/

/-- `getD` of a replicate at its own default. -/
theorem getD_replicate_self {α : Type} (n i : Nat) (a : α) :
    (List.replicate n a).getD i a = a := by
  rw [List.getD_eq_getElem?_getD, List.getElem?_replicate]
  split <;> rfl

/-- The forward DCT relation on an all-zero buffer holds with the all-zero
output. -/
theorem dct2d_blocks_zeros (n : Nat) (hn : n % 64 = 0) :
    dct2d_blocks (List.replicate n 0) 8 (.ok (List.replicate n (0 : ℝ))) := by
  unfold dct2d_blocks
  rw [if_neg (by norm_num), if_neg (by simp [hn])]
  refine ⟨List.replicate n 0, rfl, by simp, ?_⟩
  intro b v u hb hv hu
  rw [getD_replicate_self]
  have hz : ∀ i : Nat, ((List.replicate n (0 : Int)).getD i 0 : ℝ) = 0 := by
    intro i
    rw [getD_replicate_self]
    norm_num
  simp only [hz, zero_mul, Finset.sum_const_zero, mul_zero]

/-- The quantizer relation on an all-zero buffer holds with the all-zero
output, for every quality. -/
theorem quantize_zeros (n : Nat) (q : Int) (hn : n % 64 = 0) :
    quantize (List.replicate n (0 : ℝ)) 8 q (.ok (List.replicate n (0 : Int))) := by
  unfold quantize
  rw [if_neg (not_not_intro (Or.inl rfl)), if_neg (by simp [hn])]
  refine ⟨List.replicate n 0, rfl, forall₂_replicate _ n _ _ ⟨0, ⟨?_, ?_⟩, by decide⟩⟩
  · intro _
    rw [zero_mul]
    rw [show ((0 : ℝ) + 1 / 2) = 1 / 2 by ring]
    norm_num
  · intro h
    rw [zero_mul] at h
    exact absurd h (by norm_num)

/-- Unfolding `encodeEntropyTail` through given stage results, stated on
symbolic arguments so that no concrete well-founded computation is ever
forced. -/
theorem encodeEntropyTail_via (img : Image) (q : Int) (lsa : Bool)
    (qcoeff zz : List Int) (rle : List RlePair) (tb : HuffTable × List Nat)
    (entries : List (Nat × Nat))
    (h1 : zigzag_scan_blocks qcoeff 8 = .ok zz)
    (h2 : rle_encode_zeros zz 8 = .ok rle)
    (h3 : huff_encode (pack_rle_symbols rle) = .ok tb)
    (h4 : collectTableEntries tb.1.enc = entries) :
    encodeEntropyTail img q lsa qcoeff =
      encodeAssemble img q lsa (pack_rle_symbols rle) entries tb.2 := by
  unfold encodeEntropyTail
  simp only [h1, h2, h3, h4]

/-- The integer encode tail on the all-zero quantized buffer of `img128s`:
the exact container bytes, given the final assembly equation (discharged by
`rfl` at each concrete quality). -/
theorem encodeEntropyTail_img128s (q : Int)
    (hA : encodeAssemble img128s q true [0, 4063232] [(0, 1), (4063232, 1)] [64] =
      .ok (encBytes128 q)) :
    encodeEntropyTail img128s q true (List.replicate 64 0) = .ok (encBytes128 q) := by
  have hpack : pack_rle_symbols [⟨0, 0⟩, ⟨0, 62⟩] = [0, 4063232] := by decide
  have hhuff : huff_encode (pack_rle_symbols [⟨0, 0⟩, ⟨0, 62⟩]) =
      .ok (twoSymHuffTable 0 4063232, [64]) := by
    rw [hpack]
    exact huff_encode_two 0 4063232 (by norm_num)
  have hcoll : collectTableEntries (twoSymHuffTable 0 4063232, ([64] : List Nat)).1.enc =
      [(0, 1), (4063232, 1)] := collectTableEntries_two 0 4063232 (by norm_num)
  rw [encodeEntropyTail_via img128s q true (List.replicate 64 0) (List.replicate 64 0)
    [⟨0, 0⟩, ⟨0, 62⟩] (twoSymHuffTable 0 4063232, [64]) [(0, 1), (4063232, 1)]
    zigzag_scan_zeros rle_encode_allzero_block hhuff hcoll]
  rw [hpack]
  exact hA

/-- `encode_to_mcodec` holds on `img128`, producing the explicit container
bytes, given the final assembly equation. -/
theorem encode_img128 (q : Int)
    (hA : encodeAssemble img128s q true [0, 4063232] [(0, 1), (4063232, 1)] [64] =
      .ok (encBytes128 q)) :
    encode_to_mcodec img128 q (.ok (encBytes128 q)) := by
  unfold encode_to_mcodec
  rw [if_neg (by decide), if_neg (by decide), if_neg (by decide)]
  simp only [show apply_level_shift img128 = .ok img128s from by decide,
    show make_grid img128s.width img128s.height 8 =
      .ok (⟨8, 1, 1, 8, 8⟩ : BlockGrid) from by decide,
    show tile_to_blocks img128s ⟨8, 1, 1, 8, 8⟩ =
      .ok (List.replicate 64 (0 : Int)) from by decide]
  refine ⟨.ok (List.replicate 64 (0 : ℝ)), dct2d_blocks_zeros 64 (by norm_num), ?_⟩
  show ∃ qres, quantize (List.replicate 64 (0 : ℝ)) 8 q qres ∧
    match qres with
    | .error e => (Except.ok (encBytes128 q) : Except String (List Nat)) = .error e
    | .ok qcoeff =>
      (Except.ok (encBytes128 q) : Except String (List Nat)) =
        encodeEntropyTail img128s q (!img128.is_signed) qcoeff
  refine ⟨.ok (List.replicate 64 (0 : Int)), quantize_zeros 64 q (by norm_num), ?_⟩
  show Except.ok (encBytes128 q) = encodeEntropyTail img128s q (!img128.is_signed) _
  rw [show (!img128.is_signed) = true from rfl]
  exact (encodeEntropyTail_img128s q hA).symm

/-- `img128` encodes successfully at quality 50 to the explicit bytes. -/
theorem encode_img128_50 : encode_to_mcodec img128 50 (.ok (encBytes128 50)) :=
  encode_img128 50 (by rfl)

/-- `img128` encodes successfully at quality 0 to the explicit bytes. -/
theorem encode_img128_0 : encode_to_mcodec img128 0 (.ok (encBytes128 0)) :=
  encode_img128 0 (by rfl)

/-- **C8.** On a histogram with exactly one used symbol `s` the canonical
builder assigns code 0 of length 1 and builds the trie root→left→terminal;
rebuilding from the single `(s, 1)` entry on the decode side yields the
identical table (in particular the identical trie shape); and constant
streams of `s` therefore encode and decode successfully, round-tripping
through the rebuilt table. -/
theorem C8_single_symbol_huffman (s n : Nat) (hn : 0 < n) (hov : n < 4294967296) :
    build_canonical_table [(s, n)] = .ok (singleSymHuffTable s) ∧
      (singleSymHuffTable s).enc.getD s {} = ⟨0, 1, true⟩ ∧
      (singleSymHuffTable s).decode_nodes =
        [{ left := some 1 }, { symbol := some s }] ∧
      build_table_from_code_lengths [(s, 1)] = .ok (singleSymHuffTable s) ∧
      huff_encode (List.replicate n s) =
        .ok (singleSymHuffTable s, List.replicate ((n + 7) / 8) 0) ∧
      huff_decode (List.replicate ((n + 7) / 8) 0) (singleSymHuffTable s) n =
        .ok (List.replicate n s) :=
  ⟨build_canonical_table_single s n (by omega) (by omega),
    getD_set_self _ s _ _ (by simp),
    rfl,
    build_table_from_code_lengths_single s,
    huff_encode_single s n hn hov,
    huff_decode_single s n hn⟩

/-- Witness for C8 at symbol 5 with a stream of three copies. -/
theorem C8_single_symbol_huffman_witness :
    0 < 3 ∧ 3 < 4294967296 ∧
      (build_canonical_table [(5, 3)] = .ok (singleSymHuffTable 5) ∧
        (singleSymHuffTable 5).enc.getD 5 {} = ⟨0, 1, true⟩ ∧
        (singleSymHuffTable 5).decode_nodes =
          [{ left := some 1 }, { symbol := some 5 }] ∧
        build_table_from_code_lengths [(5, 1)] = .ok (singleSymHuffTable 5) ∧
        huff_encode (List.replicate 3 5) =
          .ok (singleSymHuffTable 5, List.replicate ((3 + 7) / 8) 0) ∧
        huff_decode (List.replicate ((3 + 7) / 8) 0) (singleSymHuffTable 5) 3 =
          .ok (List.replicate 3 5)) :=
  ⟨by decide, by decide, C8_single_symbol_huffman 5 3 (by decide) (by decide)⟩

/-- Witness for C4: the all-zero 8×8 coefficient block at quality 50. -/
theorem C4_quantizer_contract_witness :
    quantize (List.replicate 64 (0 : ℝ)) 8 50 (.ok (List.replicate 64 (0 : Int))) ∧
      dequantize (List.replicate 64 (0 : Int)) 8 50 (.ok (List.replicate 64 (0 : ℝ))) ∧
      (quant_step_from_quality 50 = max 1 (min 100 (101 - 50)) ∧
        List.Forall₂ (fun c o => ∃ q : Int,
          IsRoundHalfAway (c * (1 / (quant_step_from_quality 50 : ℝ))) q ∧
            o = clampToInt16 q) (List.replicate 64 (0 : ℝ)) (List.replicate 64 (0 : Int)) ∧
        List.Forall₂ (fun q o =>
          o = (q : ℝ) * (quant_step_from_quality 50 : ℝ) ∧
            |o - (q : ℝ) * (quant_step_from_quality 50 : ℝ)| ≤
              (1 / 1000000) * (quant_step_from_quality 50 : ℝ))
          (List.replicate 64 (0 : Int)) (List.replicate 64 (0 : ℝ))) := by
  have h1 : quantize (List.replicate 64 (0 : ℝ)) 8 50 (.ok (List.replicate 64 (0 : Int))) := by
    unfold quantize
    rw [if_neg (not_not_intro (Or.inl rfl)), if_neg (by simp)]
    refine ⟨List.replicate 64 0, rfl, forall₂_replicate _ 64 _ _ ⟨0, ⟨?_, ?_⟩, by decide⟩⟩
    · intro _
      rw [zero_mul]
      rw [show ((0 : ℝ) + 1 / 2) = 1 / 2 by ring]
      norm_num
    · intro h
      rw [zero_mul] at h
      exact absurd h (by norm_num)
  have h2 : dequantize (List.replicate 64 (0 : Int)) 8 50 (.ok (List.replicate 64 (0 : ℝ))) := by
    unfold dequantize
    rw [if_neg (not_not_intro (Or.inl rfl)), if_neg (by simp)]
    exact ⟨List.replicate 64 0, rfl, forall₂_replicate _ 64 _ _ (by norm_num)⟩
  exact ⟨h1, h2, C4_quantizer_contract _ 8 50 _ _ h1 h2⟩

/-! ### Container byte-layout helpers (claims C5 and C6) -/

/-- `write_u32_le` appends the four little-endian digit bytes. -/
theorem write_u32_le_eq (buf : List Nat) (v : Nat) :
    write_u32_le buf v = buf ++ u32LEBytes v := by
  show (buf ++ [v % 65536 % 256, v % 65536 / 256 % 256]) ++
      [v / 65536 % 65536 % 256, v / 65536 % 65536 / 256 % 256] = buf ++ u32LEBytes v
  rw [List.append_assoc]
  congr 1
  show [v % 65536 % 256, v % 65536 / 256 % 256, v / 65536 % 65536 % 256,
      v / 65536 % 65536 / 256 % 256] =
    [v % 256, v / 256 % 256, v / 65536 % 256, v / 16777216 % 256]
  have h1 : v % 65536 % 256 = v % 256 := by omega
  have h2 : v % 65536 / 256 % 256 = v / 256 % 256 := by omega
  have h3 : v / 65536 % 65536 % 256 = v / 65536 % 256 := by omega
  have h4 : v / 65536 % 65536 / 256 % 256 = v / 16777216 % 256 := by omega
  rw [h1, h2, h3, h4]

/-- The little-endian digits only depend on the value modulo `2^32`. -/
theorem u32LEBytes_mod (v : Nat) : u32LEBytes (v % 4294967296) = u32LEBytes v := by
  simp only [u32LEBytes, List.cons.injEq, and_true]
  omega

/-- Recomposing a u32 from its four little-endian digits. -/
theorem u32_digits_sum (v : Nat) (h : v < 4294967296) :
    v % 256 + v / 256 % 256 * 256 + v / 65536 % 256 * 65536 +
      v / 16777216 % 256 * 16777216 = v := by
  omega

/-- The used-symbol section fold appends five bytes per entry. -/
theorem tableFoldFlat (entries : List (Nat × Nat)) :
    ∀ w : List Nat,
      entries.foldl (fun w e => write_u8 (write_u32_le w e.1) e.2) w =
        w ++ entries.flatMap fun e => u32LEBytes e.1 ++ [e.2 % 256] := by
  induction entries with
  | nil => intro w; simp
  | cons e es ih =>
    intro w
    rw [List.foldl_cons, ih]
    rw [show write_u8 (write_u32_le w e.1) e.2 = w ++ (u32LEBytes e.1 ++ [e.2 % 256]) by
      rw [write_u32_le_eq]
      unfold write_u8
      rw [List.append_assoc]]
    rw [List.flatMap_cons, List.append_assoc]

/-- The used-symbol section length: five bytes per entry. -/
theorem tableFlatLength (entries : List (Nat × Nat)) :
    (entries.flatMap fun e => u32LEBytes e.1 ++ [e.2 % 256]).length =
      5 * entries.length := by
  induction entries with
  | nil => rfl
  | cons e es ih =>
    rw [List.flatMap_cons, List.length_append, ih]
    simp only [u32LEBytes, List.length_append, List.length_cons, List.length_nil]
    omega

/-- Reducing the entry lengths modulo 256 before flattening is harmless. -/
theorem flatMap_entries_map (entries : List (Nat × Nat)) :
    ((entries.map fun e => (e.1, e.2 % 256)).flatMap fun e => u32LEBytes e.1 ++ [e.2]) =
      entries.flatMap fun e => u32LEBytes e.1 ++ [e.2 % 256] := by
  induction entries with
  | nil => rfl
  | cons e es ih => simp only [List.map_cons, List.flatMap_cons, ih]

/-- The serialised fixed header, field by field. -/
theorem write_bitstream_header_eq (im : Image) (flags bsz qq : Nat) :
    write_bitstream_header [] im flags bsz qq =
      [77, 67, 68, 67, 1, 0, 32, 0] ++
        u32LEBytes (im.width.emod 4294967296).toNat ++
        u32LEBytes (im.height.emod 4294967296).toNat ++
        [(im.channels.emod 65536).toNat % 256, (im.channels.emod 65536).toNat / 256 % 256,
         (im.bits_allocated.emod 65536).toNat % 256,
         (im.bits_allocated.emod 65536).toNat / 256 % 256,
         (im.bits_stored.emod 65536).toNat % 256, (im.bits_stored.emod 65536).toNat / 256 % 256,
         (if im.is_signed then 1 else 0) % 256, flags % 256,
         bsz % 256, bsz / 256 % 256, qq % 256, qq / 256 % 256,
         0, 0, 0, 0] := by
  unfold write_bitstream_header
  rw [write_u32_le_eq, write_u32_le_eq, write_u32_le_eq]
  unfold write_u16_le write_u8 write_bytes
  simp only [List.append_assoc, List.cons_append, List.nil_append]
  rfl

/-- Patching four bytes at offsets 28–31 behind a 28-byte prefix. -/
theorem set4_at (pre tail : List Nat) (hp : pre.length = 28) (a b c d x y z w : Nat) :
    ((((pre ++ a :: b :: c :: d :: tail).set 28 x).set 29 y).set 30 z).set 31 w =
      pre ++ x :: y :: z :: w :: tail := by
  rw [List.set_append_right _ _ (by omega), hp]
  rw [show (28 : Nat) - 28 = 0 from rfl, List.set_cons_zero]
  rw [List.set_append_right _ _ (by omega), hp]
  rw [show (29 : Nat) - 28 = 1 from rfl, List.set_cons_succ, List.set_cons_zero]
  rw [List.set_append_right _ _ (by omega), hp]
  rw [show (30 : Nat) - 28 = 2 from rfl, List.set_cons_succ, List.set_cons_succ,
    List.set_cons_zero]
  rw [List.set_append_right _ _ (by omega), hp]
  rw [show (31 : Nat) - 28 = 3 from rfl, List.set_cons_succ, List.set_cons_succ,
    List.set_cons_succ, List.set_cons_zero]

/-- `u32LEBytes` always has four bytes. -/
theorem u32LEBytes_length (v : Nat) : (u32LEBytes v).length = 4 := rfl

/-- `encodeAssemble` on a non-empty used-symbol section that fits in a u32:
the explicit container bytes. -/
theorem encodeAssemble_eq (img : Image) (q : Int) (lsa : Bool)
    (symbols : List Nat) (entries : List (Nat × Nat)) (bits : List Nat)
    (he : entries ≠ [])
    (hsmall : 40 + 5 * entries.length + bits.length < 4294967296) :
    encodeAssemble img q lsa symbols entries bits =
      .ok ([77, 67, 68, 67, 1, 0, 32, 0] ++
        u32LEBytes (img.width.emod 4294967296).toNat ++
        u32LEBytes (img.height.emod 4294967296).toNat ++
        [(img.channels.emod 65536).toNat % 256, (img.channels.emod 65536).toNat / 256 % 256,
         (img.bits_allocated.emod 65536).toNat % 256,
         (img.bits_allocated.emod 65536).toNat / 256 % 256,
         (img.bits_stored.emod 65536).toNat % 256,
         (img.bits_stored.emod 65536).toNat / 256 % 256,
         (if img.is_signed then 1 else 0) % 256, (if lsa then (1 : Nat) else 0) % 256,
         8 % 256, 8 / 256 % 256,
         (q.emod 65536).toNat % 256, (q.emod 65536).toNat / 256 % 256] ++
        u32LEBytes (8 + 5 * entries.length + bits.length) ++
        u32LEBytes (symbols.length % 4294967296) ++
        u32LEBytes (entries.length % 4294967296) ++
        (entries.flatMap fun e => u32LEBytes e.1 ++ [e.2 % 256]) ++ bits) := by
  unfold encodeAssemble
  rw [if_neg he]
  simp only [tableFoldFlat]
  simp only [write_bitstream_header_eq, write_u32_le_eq, write_bytes, List.append_assoc]
  have hpb : ((4 + 4 + entries.length % 4294967296 * (4 + 1)) % 4294967296 +
      bits.length % 4294967296) % 4294967296 = 8 + 5 * entries.length + bits.length := by
    omega
  simp only [hpb]
  rw [if_neg (by
    simp only [List.length_append, List.length_cons, List.length_nil, u32LEBytes_length,
      tableFlatLength]
    omega)]
  rw [if_neg (by
    simp only [List.length_set, List.length_append, List.length_cons, List.length_nil,
      u32LEBytes_length, tableFlatLength]
    omega)]
  exact congrArg Except.ok
    (set4_at
      [77, 67, 68, 67, 1, 0, 32, 0,
       (img.width.emod 4294967296).toNat % 256, (img.width.emod 4294967296).toNat / 256 % 256,
       (img.width.emod 4294967296).toNat / 65536 % 256,
       (img.width.emod 4294967296).toNat / 16777216 % 256,
       (img.height.emod 4294967296).toNat % 256, (img.height.emod 4294967296).toNat / 256 % 256,
       (img.height.emod 4294967296).toNat / 65536 % 256,
       (img.height.emod 4294967296).toNat / 16777216 % 256,
       (img.channels.emod 65536).toNat % 256, (img.channels.emod 65536).toNat / 256 % 256,
       (img.bits_allocated.emod 65536).toNat % 256,
       (img.bits_allocated.emod 65536).toNat / 256 % 256,
       (img.bits_stored.emod 65536).toNat % 256,
       (img.bits_stored.emod 65536).toNat / 256 % 256,
       (if img.is_signed then 1 else 0) % 256, (if lsa then (1 : Nat) else 0) % 256,
       8 % 256, 8 / 256 % 256,
       (q.emod 65536).toNat % 256, (q.emod 65536).toNat / 256 % 256]
      (u32LEBytes (symbols.length % 4294967296) ++
        (u32LEBytes (entries.length % 4294967296) ++
          ((entries.flatMap fun e => u32LEBytes e.1 ++ [e.2 % 256]) ++ bits)))
      rfl 0 0 0 0
      ((8 + 5 * entries.length + bits.length) % 256)
      ((8 + 5 * entries.length + bits.length) / 256 % 256)
      ((8 + 5 * entries.length + bits.length) / 65536 % 256)
      ((8 + 5 * entries.length + bits.length) / 16777216 % 256))

/-- When the payload bookkeeping would wrap a u32, the final size check of
`encodeAssemble` fails. -/
theorem encodeAssemble_overflow (img : Image) (q : Int) (lsa : Bool)
    (symbols : List Nat) (entries : List (Nat × Nat)) (bits : List Nat)
    (he : entries ≠ [])
    (hbig : 4294967296 ≤ 40 + 5 * entries.length + bits.length) :
    encodeAssemble img q lsa symbols entries bits =
      .error "encode: buffer size mismatch after patching payload_bytes" := by
  unfold encodeAssemble
  rw [if_neg he]
  simp only [tableFoldFlat]
  simp only [write_bitstream_header_eq, write_u32_le_eq, write_bytes, List.append_assoc]
  rw [if_neg (by
    simp only [List.length_append, List.length_cons, List.length_nil, u32LEBytes_length,
      tableFlatLength]
    omega)]
  rw [if_pos (by
    simp only [List.length_set, List.length_append, List.length_cons, List.length_nil,
      u32LEBytes_length, tableFlatLength]
    omega)]

/-- A successful `encodeAssemble` forces a non-empty table section and no
uint32 wrap in the `payload_bytes` bookkeeping. -/
theorem encodeAssemble_ok_small (img : Image) (q : Int) (lsa : Bool)
    (symbols : List Nat) (entries : List (Nat × Nat)) (bits : List Nat) (out : List Nat)
    (h : encodeAssemble img q lsa symbols entries bits = .ok out) :
    entries ≠ [] ∧ 40 + 5 * entries.length + bits.length < 4294967296 := by
  by_cases he : entries = []
  · rw [encodeAssemble, if_pos he] at h
    exact absurd h (by simp)
  refine ⟨he, ?_⟩
  by_cases hs : 40 + 5 * entries.length + bits.length < 4294967296
  · exact hs
  · rw [encodeAssemble_overflow img q lsa symbols entries bits he (by omega)] at h
    exact absurd h (by simp)

/-- The byte structure of every successful `encodeAssemble`. -/
theorem encodeAssemble_ok_struct (img : Image) (q : Int) (lsa : Bool)
    (symbols : List Nat) (entries : List (Nat × Nat)) (bits : List Nat) (out : List Nat)
    (h : encodeAssemble img q lsa symbols entries bits = .ok out) :
    40 + 5 * entries.length + bits.length < 4294967296 ∧
    out = [77, 67, 68, 67, 1, 0, 32, 0] ++
      u32LEBytes (img.width.emod 4294967296).toNat ++
      u32LEBytes (img.height.emod 4294967296).toNat ++
      [(img.channels.emod 65536).toNat % 256, (img.channels.emod 65536).toNat / 256 % 256,
       (img.bits_allocated.emod 65536).toNat % 256,
       (img.bits_allocated.emod 65536).toNat / 256 % 256,
       (img.bits_stored.emod 65536).toNat % 256,
       (img.bits_stored.emod 65536).toNat / 256 % 256,
       (if img.is_signed then 1 else 0) % 256, (if lsa then (1 : Nat) else 0) % 256,
       8 % 256, 8 / 256 % 256,
       (q.emod 65536).toNat % 256, (q.emod 65536).toNat / 256 % 256] ++
      u32LEBytes (8 + 5 * entries.length + bits.length) ++
      u32LEBytes (symbols.length % 4294967296) ++
      u32LEBytes (entries.length % 4294967296) ++
      (entries.flatMap fun e => u32LEBytes e.1 ++ [e.2 % 256]) ++ bits := by
  obtain ⟨he, hs⟩ := encodeAssemble_ok_small img q lsa symbols entries bits out h
  rw [encodeAssemble_eq img q lsa symbols entries bits he hs] at h
  simp only [Except.ok.injEq] at h
  exact ⟨hs, h.symm⟩

/-- On a non-empty pixel buffer, a successful `apply_level_shift` always
returns a signed working image. -/
theorem apply_level_shift_signed (im img : Image) (hne : im.pixels ≠ [])
    (h : apply_level_shift im = .ok img) : img.is_signed = true := by
  unfold apply_level_shift at h
  rw [if_neg hne] at h
  split at h
  · exact absurd h (by simp)
  split at h
  · rename_i hs
    simp only [Except.ok.injEq] at h
    rw [← h]
    exact hs
  · simp only [Except.ok.injEq] at h
    rw [← h]

/-- A successful encode factors through `encodeAssemble` on a working image
that the level shift has marked signed. -/
theorem encode_ok_extract (im : Image) (q : Int) (bytes : List Nat)
    (h : encode_to_mcodec im q (.ok bytes)) :
    ∃ (img : Image) (symbols : List Nat) (entries : List (Nat × Nat)) (bits : List Nat),
      img.is_signed = true ∧
      encodeAssemble img q (!im.is_signed) symbols entries bits = .ok bytes := by
  unfold encode_to_mcodec at h
  by_cases h1 : im.channels ≠ 1
  · rw [if_pos h1] at h
    exact absurd h (by simp)
  rw [if_neg h1] at h
  by_cases h2 : im.width ≤ 0 ∨ im.height ≤ 0
  · rw [if_pos h2] at h
    exact absurd h (by simp)
  rw [if_neg h2] at h
  by_cases h3 : (im.pixels.length : Int) ≠ im.width * im.height
  · rw [if_pos h3] at h
    exact absurd h (by simp)
  rw [if_neg h3] at h
  have hne : im.pixels ≠ [] := by
    push_neg at h2 h3
    have hpos : (0 : Int) < im.width * im.height := mul_pos (by omega) (by omega)
    rw [← h3] at hpos
    intro hnil
    rw [hnil] at hpos
    simp at hpos
  split at h
  · exact absurd h (by simp)
  rename_i img hshift
  split at h
  · exact absurd h (by simp)
  rename_i grid hgrid
  split at h
  · exact absurd h (by simp)
  rename_i blocks hblocks
  obtain ⟨cres, hdct, h⟩ := h
  split at h
  · exact absurd h (by simp)
  rename_i coeffs hcoeffs
  obtain ⟨qres, hq, h⟩ := h
  split at h
  · exact absurd h (by simp)
  rename_i qcoeff hqc
  rw [encodeEntropyTail] at h
  split at h
  · exact absurd h (by simp)
  rename_i zz hzz
  split at h
  · exact absurd h (by simp)
  rename_i rle hrle
  dsimp only at h
  split at h
  · exact absurd h (by simp)
  rename_i tb htb
  exact ⟨img, pack_rle_symbols rle, collectTableEntries tb.1.enc, tb.2,
    apply_level_shift_signed im img hne hshift, h.symm⟩

/-- **C5.** Every byte buffer returned by a successful encode is a 32-byte
header (magic "MCDC", version 1, header_bytes 32) followed by the payload
`[symbol_count:u32][used_symbol_count:u32][(symbol:u32, length:u8) entries]
[Huffman bytes]`, and the u32 at offset 28 is the exact payload length
`8 + 5·used_symbol_count + #huffman_bytes`, with total length
`32 + payload_bytes`. -/
theorem C5_container_layout (im : Image) (q : Int) (bytes : List Nat)
    (henc : encode_to_mcodec im q (.ok bytes)) :
    ∃ (sc : Nat) (entries : List (Nat × Nat)) (hbits : List Nat),
      bytes.take 4 = [77, 67, 68, 67] ∧
      get_u16_at bytes 4 = 1 ∧
      get_u16_at bytes 6 = 32 ∧
      bytes.drop 32 = u32LEBytes sc ++ u32LEBytes entries.length ++
        (entries.flatMap fun e => u32LEBytes e.1 ++ [e.2]) ++ hbits ∧
      get_u32_at bytes 28 = 8 + 5 * entries.length + hbits.length ∧
      bytes.length = 32 + get_u32_at bytes 28 := by
  obtain ⟨img, symbols, entriesR, bits, hsg, hasm⟩ := encode_ok_extract im q bytes henc
  obtain ⟨hsmall, hout⟩ := encodeAssemble_ok_struct _ _ _ _ _ _ _ hasm
  have hg4 : bytes.getD 4 0 = 1 := by rw [hout]; rfl
  have hg5 : bytes.getD 5 0 = 0 := by rw [hout]; rfl
  have hg6 : bytes.getD 6 0 = 32 := by rw [hout]; rfl
  have hg7 : bytes.getD 7 0 = 0 := by rw [hout]; rfl
  have hg28 : bytes.getD 28 0 = (8 + 5 * entriesR.length + bits.length) % 256 := by
    rw [hout]; rfl
  have hg29 : bytes.getD 29 0 = (8 + 5 * entriesR.length + bits.length) / 256 % 256 := by
    rw [hout]; rfl
  have hg30 : bytes.getD 30 0 = (8 + 5 * entriesR.length + bits.length) / 65536 % 256 := by
    rw [hout]; rfl
  have hg31 : bytes.getD 31 0 =
      (8 + 5 * entriesR.length + bits.length) / 16777216 % 256 := by
    rw [hout]; rfl
  have hu32 : get_u32_at bytes 28 = 8 + 5 * entriesR.length + bits.length := by
    show bytes.getD 28 0 + bytes.getD 29 0 * 256 + bytes.getD 30 0 * 65536 +
      bytes.getD 31 0 * 16777216 = 8 + 5 * entriesR.length + bits.length
    rw [hg28, hg29, hg30, hg31]
    omega
  have hlen : bytes.length = 40 + 5 * entriesR.length + bits.length := by
    rw [hout]
    simp only [List.length_append, List.length_cons, List.length_nil, u32LEBytes_length,
      tableFlatLength]
  refine ⟨symbols.length % 4294967296, entriesR.map fun e => (e.1, e.2 % 256), bits,
    ?_, ?_, ?_, ?_, ?_, ?_⟩
  · rw [hout]; rfl
  · show bytes.getD 4 0 + bytes.getD 5 0 * 256 = 1
    rw [hg4, hg5]
  · show bytes.getD 6 0 + bytes.getD 7 0 * 256 = 32
    rw [hg6, hg7]
  · rw [List.length_map, flatMap_entries_map, ← u32LEBytes_mod entriesR.length, hout]
    simp only [List.append_assoc]
    rfl
  · rw [List.length_map, hu32]
  · rw [hlen, hu32]
    omega

/-- Witness for C5: the quality-50 encode of the constant-128 image. -/
theorem C5_container_layout_witness :
    ∃ (sc : Nat) (entries : List (Nat × Nat)) (hbits : List Nat),
      (encBytes128 50).take 4 = [77, 67, 68, 67] ∧
      get_u16_at (encBytes128 50) 4 = 1 ∧
      get_u16_at (encBytes128 50) 6 = 32 ∧
      (encBytes128 50).drop 32 = u32LEBytes sc ++ u32LEBytes entries.length ++
        (entries.flatMap fun e => u32LEBytes e.1 ++ [e.2]) ++ hbits ∧
      get_u32_at (encBytes128 50) 28 = 8 + 5 * entries.length + hbits.length ∧
      (encBytes128 50).length = 32 + get_u32_at (encBytes128 50) 28 :=
  C5_container_layout img128 50 (encBytes128 50) encode_img128_50

/-- Counterexample to C6 as stated: `img128` is unsigned, its encode
succeeds, yet header byte 22 records 1, not the original signedness 0. -/
theorem C6_counterexample_unsigned_input :
    img128.is_signed = false ∧
      encode_to_mcodec img128 50 (.ok (encBytes128 50)) ∧
      (encBytes128 50).getD 22 0 = 1 :=
  ⟨rfl, encode_img128_50, rfl⟩

/-- **C6 (amended).** Header byte 22 records the signedness of the
level-shifted working copy, which is always signed on the successful path:
every successfully produced container has byte 22 equal to 1, regardless of
the input image's signedness. -/
theorem C6_header_is_signed_byte (im : Image) (q : Int) (bytes : List Nat)
    (henc : encode_to_mcodec im q (.ok bytes)) :
    bytes.getD 22 0 = 1 := by
  obtain ⟨img, symbols, entriesR, bits, hsg, hasm⟩ := encode_ok_extract im q bytes henc
  obtain ⟨-, hout⟩ := encodeAssemble_ok_struct _ _ _ _ _ _ _ hasm
  rw [hout]
  show (if img.is_signed then 1 else 0) % 256 = 1
  rw [hsg]
  rfl

/-- Witness for the amended C6 at the quality-0 encode of `img128`. -/
theorem C6_header_is_signed_byte_witness : (encBytes128 0).getD 22 0 = 1 :=
  C6_header_is_signed_byte img128 0 (encBytes128 0) encode_img128_0

/-- Counterexample to C7 as stated: quality 0 lies outside `[1, 100]`, yet
the encoder succeeds on `img128` — quality is never validated; the step is
silently clamped. -/
theorem C7_counterexample_quality_zero :
    ((0 : Int) < 1 ∨ 100 < (0 : Int)) ∧
      encode_to_mcodec img128 0 (.ok (encBytes128 0)) :=
  ⟨Or.inl (by decide), encode_img128_0⟩

/-- **C7 (amended).** The structural checks (channels, dimensions, buffer
size) do force an error, but quality is never validated:
`quant_step_from_quality` silently clamps the step into `[1, 100]` for every
quality. -/
theorem C7_encode_error_conditions (im : Image) (q : Int)
    (res : Except String (List Nat)) (henc : encode_to_mcodec im q res)
    (hbad : im.channels ≠ 1 ∨ im.width ≤ 0 ∨ im.height ≤ 0 ∨
      (im.pixels.length : Int) ≠ im.width * im.height) :
    (∃ e, res = .error e) ∧
      1 ≤ quant_step_from_quality q ∧ quant_step_from_quality q ≤ 100 := by
  have hq : 1 ≤ quant_step_from_quality q ∧ quant_step_from_quality q ≤ 100 := by
    simp only [quant_step_from_quality]
    constructor <;> (split_ifs <;> omega)
  refine ⟨?_, hq⟩
  unfold encode_to_mcodec at henc
  by_cases h1 : im.channels ≠ 1
  · rw [if_pos h1] at henc
    exact ⟨_, henc⟩
  rw [if_neg h1] at henc
  by_cases h2 : im.width ≤ 0 ∨ im.height ≤ 0
  · rw [if_pos h2] at henc
    exact ⟨_, henc⟩
  rw [if_neg h2] at henc
  by_cases h3 : (im.pixels.length : Int) ≠ im.width * im.height
  · rw [if_pos h3] at henc
    exact ⟨_, henc⟩
  rcases hbad with hb | hb | hb | hb
  · exact absurd hb h1
  · exact absurd (Or.inl hb) h2
  · exact absurd (Or.inr hb) h2
  · exact absurd hb h3

/-- Witness for the amended C7: a two-channel image is rejected with the
grayscale error, and the step for quality 7 is inside `[1, 100]`. -/
theorem C7_encode_error_conditions_witness :
    (∃ e, (Except.error "encode: only grayscale is supported" :
        Except String (List Nat)) = .error e) ∧
      1 ≤ quant_step_from_quality 7 ∧ quant_step_from_quality 7 ≤ 100 :=
  C7_encode_error_conditions imgChan2 7 (.error "encode: only grayscale is supported")
    (by unfold encode_to_mcodec; rw [if_pos (by decide)])
    (Or.inl (by decide))

/-! ### Decode-side facts (claim C10) -/

/-- A successfully parsed header records byte 23 as its flags field. -/
theorem read_header_flags (bytes : List Nat) (hdr : MCodecHeader)
    (h : read_bitstream_header bytes = .ok hdr) : hdr.flags = bytes.getD 23 0 := by
  unfold read_bitstream_header at h
  dsimp only at h
  split at h
  · exact absurd h (by simp)
  split at h
  · exact absurd h (by simp)
  split at h
  · exact absurd h (by simp)
  split at h
  · exact absurd h (by simp)
  split at h
  · exact absurd h (by simp)
  simp only [Except.ok.injEq] at h
  rw [← h]

/-- A successful `decodeEntropyFront` goes through `read_bitstream_header`,
whose result is the returned header. -/
theorem decodeEntropyFront_header (bytes : List Nat)
    (front : MCodecHeader × BlockGrid × List Int)
    (h : decodeEntropyFront bytes = .ok front) :
    read_bitstream_header bytes = .ok front.1 := by
  unfold decodeEntropyFront at h
  dsimp only at h
  split at h
  · exact absurd h (by simp)
  split at h
  · exact absurd h (by simp)
  rename_i hdr hread
  split at h
  · exact absurd h (by simp)
  split at h
  · exact absurd h (by simp)
  split at h
  · exact absurd h (by simp)
  split at h
  · exact absurd h (by simp)
  split at h
  · exact absurd h (by simp)
  split at h
  · exact absurd h (by simp)
  split at h
  · exact absurd h (by simp)
  rename_i table htable
  split at h
  · exact absurd h (by simp)
  rename_i symbols hsymbols
  split at h
  · exact absurd h (by simp)
  rename_i grid hgrid
  split at h
  · exact absurd h (by simp)
  rename_i seq hseq
  split at h
  · exact absurd h (by simp)
  rename_i qcoeff hqcoeff
  simp only [Except.ok.injEq] at h
  rw [← h]
  exact hread

/-- The fields a successful `untile_from_blocks` carries over, and the
pixel-count it establishes. -/
theorem untile_ok_fields (img : Image) (g : BlockGrid) (padded : List Int)
    (im1 : Image) (h : untile_from_blocks img g padded = .ok im1) :
    im1.is_signed = img.is_signed ∧ im1.bits_stored = img.bits_stored ∧
      im1.pixels.length = img.height.toNat * img.width.toNat ∧
      0 < img.width ∧ 0 < img.height := by
  unfold untile_from_blocks at h
  split at h
  · exact absurd h (by simp)
  split at h
  · exact absurd h (by simp)
  split at h
  · exact absurd h (by simp)
  rename_i h1 h2 h3
  simp only [Except.ok.injEq] at h
  rw [← h]
  push_neg at h2
  refine ⟨rfl, rfl, ?_, h2.1, h2.2⟩
  simp only [List.length_flatMap, List.map_map]
  simp only [Function.comp_def, List.length_map, List.length_range, List.map_const']
  simp only [List.sum_replicate, smul_eq_mul, List.length_range]

/-- A successful `inverse_level_shift` on a non-empty buffer clears the
signedness flag and clamps every pixel into `[0, 2^bits_stored - 1]`. -/
theorem inverse_level_shift_bounds (img im2 : Image) (hne : img.pixels ≠ [])
    (h : inverse_level_shift img = .ok im2) :
    im2.is_signed = false ∧ im2.bits_stored = img.bits_stored ∧
      ∀ p ∈ im2.pixels, 0 ≤ p ∧ p ≤ 2 ^ img.bits_stored.toNat - 1 := by
  unfold inverse_level_shift at h
  rw [if_neg hne] at h
  split at h
  · exact absurd h (by simp)
  simp only [Except.ok.injEq] at h
  rw [← h]
  refine ⟨rfl, rfl, ?_⟩
  intro p hp
  simp only [List.mem_map] at hp
  obtain ⟨v, -, rfl⟩ := hp
  have hpow : (0 : Int) < 2 ^ img.bits_stored.toNat := pow_pos (by norm_num) _
  unfold clamp_i32
  omega

/-- **C10.** Any image successfully decoded from a container whose header
flags have bit 0 set is unsigned with every pixel clamped into
`[0, 2^bits_stored - 1]`: the inverse level shift runs last and clamps. -/
theorem C10_flagged_decode_clamped (bytes : List Nat) (im : Image)
    (hdec : decode_from_mcodec bytes (.ok im))
    (hflag : bytes.getD 23 0 % 2 = 1) :
    im.is_signed = false ∧
      ∀ p ∈ im.pixels, 0 ≤ p ∧ p ≤ 2 ^ im.bits_stored.toNat - 1 := by
  unfold decode_from_mcodec at hdec
  split at hdec
  · exact absurd hdec (by simp)
  rename_i front hfront
  have hfl : front.1.flags = bytes.getD 23 0 :=
    read_header_flags bytes front.1 (decodeEntropyFront_header bytes front hfront)
  obtain ⟨dres, hdq, hdec⟩ := hdec
  split at hdec
  · exact absurd hdec (by simp)
  rename_i coeffs hcoeffs
  obtain ⟨ires, hidct, hdec⟩ := hdec
  split at hdec
  · exact absurd hdec (by simp)
  rename_i blocks hblocks
  dsimp only at hdec
  split at hdec
  · exact absurd hdec (by simp)
  rename_i im1 huntile
  split at hdec
  · exact absurd hdec (by simp)
  rename_i im2 hshift
  split at hdec
  · exact absurd hdec (by simp)
  simp only [Except.ok.injEq] at hdec
  subst hdec
  rw [hfl, if_pos hflag] at hshift
  obtain ⟨hsg1, hbs1, hplen, hw, hh⟩ := untile_ok_fields _ _ _ _ huntile
  have hne : im1.pixels ≠ [] := by
    refine List.ne_nil_of_length_pos ?_
    rw [hplen]
    exact Nat.mul_pos (by omega) (by omega)
  obtain ⟨hsg2, hbs2, hbound⟩ := inverse_level_shift_bounds im1 im hne hshift
  refine ⟨hsg2, ?_⟩
  rw [hbs2]
  exact hbound

/-- A zero bit from node 0 of the two-symbol trie yields symbol `a`. -/
theorem huffDecodeOne_twoA (a b : Nat) (L : List Nat) (p : Nat)
    (h : p / 8 < L.length) (hb : (L.getD (p / 8) 0 >>> (7 - p % 8)) % 2 = 0) :
    huffDecodeOne (twoSymHuffTable a b) 0 ⟨L, p⟩ = .ok (a, ⟨L, p + 1⟩) := by
  have hread : read_bit ⟨L, p⟩ = .ok (false, ⟨L, p + 1⟩) := by
    unfold read_bit
    rw [if_neg (by simp only [not_le]; omega)]
    simp only [hb]
    rfl
  have hstep : huffDecodeOne (twoSymHuffTable a b) 1 ⟨L, p + 1⟩ =
      .ok (a, ⟨L, p + 1⟩) := by
    unfold huffDecodeOne
    rw [if_neg (by simp [twoSymHuffTable])]
    rfl
  unfold huffDecodeOne
  rw [if_neg (by simp [twoSymHuffTable])]
  split
  · rename_i e heq
    rw [hread] at heq
    simp at heq
  · rename_i bit rs2 heq
    rw [hread] at heq
    simp only [Except.ok.injEq, Prod.mk.injEq] at heq
    obtain ⟨rfl, rfl⟩ := heq
    simpa [twoSymHuffTable] using hstep

/-- A one bit from node 0 of the two-symbol trie yields symbol `b`. -/
theorem huffDecodeOne_twoB (a b : Nat) (L : List Nat) (p : Nat)
    (h : p / 8 < L.length) (hb : (L.getD (p / 8) 0 >>> (7 - p % 8)) % 2 = 1) :
    huffDecodeOne (twoSymHuffTable a b) 0 ⟨L, p⟩ = .ok (b, ⟨L, p + 1⟩) := by
  have hread : read_bit ⟨L, p⟩ = .ok (true, ⟨L, p + 1⟩) := by
    unfold read_bit
    rw [if_neg (by simp only [not_le]; omega)]
    simp only [hb]
    rfl
  have hstep : huffDecodeOne (twoSymHuffTable a b) 2 ⟨L, p + 1⟩ =
      .ok (b, ⟨L, p + 1⟩) := by
    unfold huffDecodeOne
    rw [if_neg (by simp [twoSymHuffTable])]
    rfl
  unfold huffDecodeOne
  rw [if_neg (by simp [twoSymHuffTable])]
  split
  · rename_i e heq
    rw [hread] at heq
    simp at heq
  · rename_i bit rs2 heq
    rw [hread] at heq
    simp only [Except.ok.injEq, Prod.mk.injEq] at heq
    obtain ⟨rfl, rfl⟩ := heq
    simpa [twoSymHuffTable] using hstep

/-- Decoding two symbols from the byte `0b01000000` with the two-symbol
table: a zero bit then a one bit. -/
theorem huff_decode_pair (a b : Nat) :
    huff_decode [64] (twoSymHuffTable a b) 2 = .ok [a, b] := by
  unfold huff_decode
  rw [huffDecodeLoop]
  simp only [huffDecodeOne_twoA a b [64] 0 (by decide) (by decide)]
  rw [huffDecodeLoop]
  simp only [huffDecodeOne_twoB a b [64] 1 (by decide) (by decide)]
  rw [huffDecodeLoop]
  rfl

/-- The inverse zigzag of an all-zero 8×8 sequence is all-zero. -/
theorem inverse_zigzag_zeros :
    inverse_zigzag_blocks (List.replicate 64 0) 8 = .ok (List.replicate 64 0) := by
  unfold inverse_zigzag_blocks
  rw [if_neg (by norm_num), if_neg (by simp)]
  simp only [show make_zigzag_order 8 = .ok zigzagOrder8 from rfl]
  rw [show List.replicate 64 (0 : Int) = 0 :: List.replicate 63 0 from rfl]
  rw [show zigzagScatterBlocks zigzagOrder8 (8 * 8) ((0 : Int) :: List.replicate 63 0) =
      (zigzagOrder8.zip (((0 : Int) :: List.replicate 63 0).take (8 * 8))).foldl
          (fun acc p => acc.set p.1 p.2) (List.replicate (8 * 8) 0) ++
        zigzagScatterBlocks zigzagOrder8 (8 * 8) ((List.replicate 63 (0 : Int)).drop (8 * 8 - 1))
      by simp only [zigzagScatterBlocks]]
  rw [show (List.replicate 63 (0 : Int)).drop (8 * 8 - 1) = [] by simp]
  rw [show zigzagScatterBlocks zigzagOrder8 (8 * 8) ([] : List Int) = [] by
    simp only [zigzagScatterBlocks]]
  rw [List.append_nil]
  exact congrArg Except.ok (by decide)

/-- The dequantizer relation on an all-zero buffer holds with the all-zero
output, for every quality. -/
theorem dequantize_zeros (n : Nat) (q : Int) (hn : n % 64 = 0) :
    dequantize (List.replicate n (0 : Int)) 8 q (.ok (List.replicate n (0 : ℝ))) := by
  unfold dequantize
  rw [if_neg (not_not_intro (Or.inl rfl)), if_neg (by simp [hn])]
  refine ⟨List.replicate n 0, rfl, ?_⟩
  simp only [bind_pure_comp, List.map_eq_map, List.map_replicate]
  exact forall₂_replicate _ n _ _ (by norm_num)

/-- The inverse DCT relation on an all-zero buffer holds with the all-zero
output. -/
theorem idct2d_blocks_zeros (n : Nat) (hn : n % 64 = 0) :
    idct2d_blocks (List.replicate n (0 : ℝ)) 8 (.ok (List.replicate n (0 : Int))) := by
  unfold idct2d_blocks
  rw [if_neg (not_not_intro (Or.inl rfl)), if_neg (by simp [hn])]
  refine ⟨List.replicate n 0, rfl, by simp, ?_⟩
  intro b y x hb hy hx
  have hz : ∀ i : Nat, (List.replicate n (0 : ℝ)).getD i 0 = 0 := fun i =>
    getD_replicate_self n i 0
  refine ⟨0, ?_, ?_⟩
  · simp only [hz, mul_zero, zero_mul, Finset.sum_const_zero]
    constructor
    · intro _
      rw [show ((0 : ℝ) + 1 / 2) = 1 / 2 by ring]
      norm_num
    · intro h
      exact absurd h (by norm_num)
  · rw [getD_replicate_self]
    omega

/-- Unfolding `decodeEntropyFront` through given stage results, stated on
symbolic arguments so that no concrete well-founded or table-building
computation is ever forced. -/
theorem decodeEntropyFront_via (bytes : List Nat) (hdr : MCodecHeader)
    (payload : List Nat) (sc usc : Nat) (entries : List (Nat × Nat))
    (huff_bits : List Nat) (table : HuffTable) (symbols : List Nat)
    (grid : BlockGrid) (seq qcoeff : List Int)
    (h0 : ¬ bytes.length < 32)
    (hread : read_bitstream_header bytes = .ok hdr)
    (h1 : ¬ bytes.length < hdr.header_bytes + hdr.payload_bytes)
    (hpay : (bytes.drop hdr.header_bytes).take hdr.payload_bytes = payload)
    (h2 : ¬ payload.length < 4)
    (h3 : ¬ payload.length < 8)
    (hsc : get_u32_at payload 0 = sc)
    (husc : get_u32_at payload 4 = usc)
    (h4 : ¬ usc = 0)
    (h5 : ¬ (payload.length - 8 < usc * (4 + 1)))
    (hent : ((List.range usc).map fun i =>
      (get_u32_at payload (8 + 5 * i), payload.getD (8 + 5 * i + 4) 0)) = entries)
    (h6 : ∀ e ∈ entries, e.2 ≠ 0 ∧ e.2 ≤ 32)
    (hbits : payload.drop (8 + 5 * usc) = huff_bits)
    (htab : build_table_from_code_lengths entries = .ok table)
    (hdec : huff_decode huff_bits table sc = .ok symbols)
    (hgrid : make_grid (u32ToInt32 hdr.width) (u32ToInt32 hdr.height)
      (hdr.block_size : Int) = .ok grid)
    (hrle : rle_decode_zeros (unpack_rle_symbols symbols) hdr.block_size
      ((grid.blocks_x * grid.blocks_y).toNat * (hdr.block_size * hdr.block_size)) =
      .ok seq)
    (hzz : inverse_zigzag_blocks seq hdr.block_size = .ok qcoeff) :
    decodeEntropyFront bytes = .ok (hdr, grid, qcoeff) := by
  unfold decodeEntropyFront
  rw [if_neg h0]
  simp only [hread]
  rw [if_neg h1]
  simp only [hpay]
  rw [if_neg h2, if_neg h3]
  simp only [hsc, husc]
  rw [if_neg h4, if_neg h5]
  simp only [hent]
  rw [if_neg (not_not_intro h6)]
  simp only [hbits, htab, hdec, hgrid, hrle, hzz]

/-- The integer decode front on the quality-50 container of `img128`. -/
theorem decodeEntropyFront_img128 :
    decodeEntropyFront (encBytes128 50) =
      .ok ({ magic := [77, 67, 68, 67], version := 1, header_bytes := 32, width := 8,
             height := 8, channels := 1, bits_allocated := 8, bits_stored := 8,
             is_signed := 1, flags := 1, block_size := 8, quality := 50,
             payload_bytes := 19 },
           ⟨8, 1, 1, 8, 8⟩, List.replicate 64 0) :=
  decodeEntropyFront_via (encBytes128 50)
    { magic := [77, 67, 68, 67], version := 1, header_bytes := 32, width := 8,
      height := 8, channels := 1, bits_allocated := 8, bits_stored := 8,
      is_signed := 1, flags := 1, block_size := 8, quality := 50, payload_bytes := 19 }
    [2, 0, 0, 0, 2, 0, 0, 0, 0, 0, 0, 0, 1, 0, 0, 62, 0, 1, 64]
    2 2 [(0, 1), (4063232, 1)] [64] (twoSymHuffTable 0 4063232) [0, 4063232]
    ⟨8, 1, 1, 8, 8⟩ (List.replicate 64 0) (List.replicate 64 0)
    (by decide) (by decide) (by decide) (by decide) (by decide) (by decide)
    (by decide) (by decide) (by decide) (by decide) (by decide) (by decide)
    (by decide)
    (build_table_from_code_lengths_two 0 4063232 (by norm_num))
    (huff_decode_pair 0 4063232)
    (by decide) (by decide) inverse_zigzag_zeros

/-- The quality-50 container of `img128` decodes to the constant-128
image. -/
theorem decode_img128_50 : decode_from_mcodec (encBytes128 50) (.ok imgDec50) := by
  unfold decode_from_mcodec
  rw [decodeEntropyFront_img128]
  refine ⟨.ok (List.replicate 64 (0 : ℝ)), dequantize_zeros 64 _ (by norm_num), ?_⟩
  refine ⟨.ok (List.replicate 64 (0 : Int)), idct2d_blocks_zeros 64 (by norm_num), ?_⟩
  rfl

/-- Witness for C10: decoding the quality-50 container of `img128`. -/
theorem C10_flagged_decode_clamped_witness :
    (encBytes128 50).getD 23 0 % 2 = 1 ∧
      (imgDec50.is_signed = false ∧
        ∀ p ∈ imgDec50.pixels, 0 ≤ p ∧ p ≤ 2 ^ imgDec50.bits_stored.toNat - 1) :=
  ⟨by decide,
    C10_flagged_decode_clamped (encBytes128 50) imgDec50 decode_img128_50 (by decide)⟩

end MCodec
